import Mathlib

/-!
Verification of the commission-rollover core of the leaderboard repository.

The development shallowly embeds the rollover utilities
(`getPreviousMonth`, `formatMonthLabel`, `parseCommissionPairs`,
`getIncompleteCommissions`, `checkAndApplyRollover` in its single-phase and
two-phase variants, `ensureRolloverItemsCalculated`,
`applyRolloverToMissingRecords`, `markRolloverAsApplied`) as pure Lean
functions over an explicit document-store state, together with models of
the JavaScript primitives the code relies on (`Number`, `parseFloat`,
`JSON.parse`, `JSON.stringify`, `String.prototype.trim` / `toLowerCase` /
`split`, and the `Date(year, month, day)` constructor).

Machine floats are modelled with exact decimal numbers extended by NaN and
infinities (`JsNumber`); every quantity the claims inspect is exactly
representable.
-/

namespace Leaderboard

/-! ## Character and string primitives -/

/-- Whitespace characters recognised by the JavaScript string primitives
(the common subset actually reachable from the repository's data: space and
the ASCII control whitespace). -/
def isWsChar (c : Char) : Bool :=
  c = ' ' || c = '\t' || c = '\n' || c = '\r' || c = '\x0b' || c = '\x0c'

/-- Model of `String.prototype.trim` on a character list. -/
def jsTrimChars (cs : List Char) : List Char :=
  ((cs.dropWhile isWsChar).reverse.dropWhile isWsChar).reverse

/-- Model of `String.prototype.trim`. -/
def jsTrim (s : String) : String :=
  ⟨jsTrimChars s.data⟩

/-- Model of `String.prototype.toLowerCase` (ASCII case mapping; the
repository's property codes are ASCII). -/
def jsLower (s : String) : String :=
  ⟨s.data.map Char.toLower⟩

/-- The `code.trim().toLowerCase()` normalisation used throughout the
rollover utilities. -/
def normCode (s : String) : String :=
  jsLower (jsTrim s)

/-- Model of `String.prototype.split` with a single-character separator,
on character lists. -/
def splitCh (sep : Char) : List Char → List (List Char)
  | [] => [[]]
  | c :: cs =>
    if c = sep then [] :: splitCh sep cs
    else
      match splitCh sep cs with
      | [] => [[c]]
      | p :: ps => (c :: p) :: ps

/-- Model of `String.prototype.split` with a single-character separator. -/
def jsSplit (sep : Char) (s : String) : List String :=
  (splitCh sep s.data).map (fun cs => ⟨cs⟩)

/-- Numeric value of a decimal-digit character. -/
def digitVal (c : Char) : Nat :=
  c.toNat - 48

/-- Value of a list of decimal digits, most significant first. -/
def digitsVal (cs : List Char) : Nat :=
  cs.foldl (fun a c => 10 * a + digitVal c) 0

/-- Character of a decimal digit. -/
def digitChar : Nat → Char
  | 0 => '0' | 1 => '1' | 2 => '2' | 3 => '3' | 4 => '4'
  | 5 => '5' | 6 => '6' | 7 => '7' | 8 => '8' | _ => '9'

/-- Fuel-indexed digit emitter (structural recursion, so that the kernel
can evaluate it; `natDecChars` always supplies enough fuel). -/
def natDecCharsAux : Nat → Nat → List Char
  | 0, _ => []
  | fuel + 1, n =>
    if n < 10 then [digitChar n]
    else natDecCharsAux fuel (n / 10) ++ [digitChar (n % 10)]

/-- Decimal digits of a natural number, most significant first. -/
def natDecChars (n : Nat) : List Char :=
  natDecCharsAux (n + 1) n

/-- Decimal string of a natural number. -/
def natDec (n : Nat) : String :=
  ⟨natDecChars n⟩

/-- Decimal string of an integer, as produced by JavaScript template
interpolation of an integral number. -/
def intDec (i : Int) : String :=
  if i < 0 then "-" ++ natDec i.natAbs else natDec i.toNat

/-- Model of `String(n).padStart(2, '0')` for a natural number `n`. -/
def pad2 (n : Nat) : String :=
  if n < 10 then "0" ++ natDec n else natDec n

/-! ## JavaScript numbers

JavaScript numbers are IEEE doubles. Every number flowing through the
rollover core originates from a decimal digit string, so finite values are
represented exactly as `mant · 10 ^ exp10` decimal pairs (`Dec10`),
extended with NaN and the two infinities. Representation is not unique,
but every comparison the code performs (`=== 0`, `isNaN`, truncation) is
computed value-faithfully from the pair. -/

/-- An exact decimal number: the value `mant · 10 ^ exp10`. -/
structure Dec10 where
  mant : Int
  exp10 : Int
  deriving DecidableEq, Repr

/-- The value of a decimal number is zero iff its mantissa is. -/
def Dec10.isZero (d : Dec10) : Bool :=
  d.mant = 0

/-- Negation of a decimal number. -/
def Dec10.neg (d : Dec10) : Dec10 :=
  ⟨-d.mant, d.exp10⟩

/-- Subtraction of decimal numbers (aligning exponents). -/
def Dec10.sub (a b : Dec10) : Dec10 :=
  let e := min a.exp10 b.exp10
  ⟨a.mant * (10 : Int) ^ (a.exp10 - e).toNat - b.mant * (10 : Int) ^ (b.exp10 - e).toNat, e⟩

/-- Truncation toward zero (ECMAScript `ToIntegerOrInfinity` on a finite
value). -/
def Dec10.trunc (d : Dec10) : Int :=
  if 0 ≤ d.exp10 then d.mant * (10 : Int) ^ d.exp10.toNat
  else d.mant.tdiv ((10 : Int) ^ (-d.exp10).toNat)

/-- A JavaScript number: NaN, an infinity, or a finite decimal value. -/
inductive JsNumber where
  | nan : JsNumber
  | inf (negative : Bool) : JsNumber
  | rat (d : Dec10) : JsNumber
  deriving DecidableEq, Repr

/-- Whether a `JsNumber` is NaN. -/
def JsNumber.isNaN : JsNumber → Bool
  | .nan => true
  | _ => false

/-- Strict equality of a `JsNumber` with zero (`=== 0`). -/
def JsNumber.isZero : JsNumber → Bool
  | .rat d => d.isZero
  | _ => false

/-- Subtraction of a finite literal from a `JsNumber`, as used by
`month - 2` in `getPreviousMonth` (NaN and infinities propagate). -/
def JsNumber.subNat : JsNumber → Nat → JsNumber
  | .nan, _ => .nan
  | .inf b, _ => .inf b
  | .rat d, n => .rat (d.sub ⟨n, 0⟩)

/-- First result component: digits prefix; second: the remaining input. -/
def takeDigits (cs : List Char) : List Char × List Char :=
  (cs.takeWhile Char.isDigit, cs.dropWhile Char.isDigit)

/-- Finite value denoted by integer digits, fraction digits and a decimal
exponent: reading the concatenated digits as the mantissa scaled down by
the fraction length. -/
def decValue (ipart fpart : List Char) (exp : Int) : Dec10 :=
  ⟨(digitsVal (ipart ++ fpart) : Int), exp - fpart.length⟩

/-- Parse the optional exponent of an ECMAScript decimal literal; the whole
remaining input must be consumed (`Number` semantics). -/
def numExponentFull (ipart fpart : List Char) : List Char → Option Dec10
  | [] => some (decValue ipart fpart 0)
  | e :: rest =>
    if e = 'e' || e = 'E' then
      let (sgn, rest') :=
        match rest with
        | '+' :: r => (1, r)
        | '-' :: r => (-1, r)
        | r => ((1 : Int), r)
      let (ds, rest'') := takeDigits rest'
      if ds ≠ [] ∧ rest'' = [] then
        some (decValue ipart fpart (sgn * (digitsVal ds : Int)))
      else none
    else none

/-- Parse an unsigned ECMAScript decimal literal, consuming the whole
input. -/
def numDecFull (cs : List Char) : Option Dec10 :=
  let (ipart, r1) := takeDigits cs
  match r1 with
  | '.' :: r2 =>
    let (fpart, r3) := takeDigits r2
    if ipart = [] ∧ fpart = [] then none
    else numExponentFull ipart fpart r3
  | r1' =>
    if ipart = [] then none else numExponentFull ipart [] r1'

/-- Digit value in radix `r`, if valid. -/
def radixDigit (r : Nat) (c : Char) : Option Nat :=
  let v :=
    if c.isDigit then some (digitVal c)
    else if 'a' ≤ c ∧ c ≤ 'f' then some (c.toNat - 87)
    else if 'A' ≤ c ∧ c ≤ 'F' then some (c.toNat - 55)
    else none
  match v with
  | some d => if d < r then some d else none
  | none => none

/-- Value of a digit string in radix `r`, if every character is valid. -/
def radixVal (r : Nat) : List Char → Option Nat → Option Nat
  | [], acc => acc
  | c :: cs, acc =>
    match acc, radixDigit r c with
    | some a, some d => radixVal r cs (some (a * r + d))
    | _, _ => none

/-- Model of the JavaScript `Number(string)` coercion (ECMAScript
`StringToNumber`): trims whitespace, empty means 0, accepts signed decimal
literals, `Infinity`, and radix-prefixed integers. -/
def jsToNumber (s : String) : JsNumber :=
  let cs := jsTrimChars s.data
  if cs = [] then .rat ⟨0, 0⟩
  else if cs = "Infinity".data || cs = "+Infinity".data then .inf false
  else if cs = "-Infinity".data then .inf true
  else
    match cs with
    | '0' :: x :: rest =>
      if x = 'x' || x = 'X' then
        match radixVal 16 rest (some 0), rest with
        | some v, _ :: _ => .rat ⟨v, 0⟩
        | _, _ => .nan
      else if x = 'o' || x = 'O' then
        match radixVal 8 rest (some 0), rest with
        | some v, _ :: _ => .rat ⟨v, 0⟩
        | _, _ => .nan
      else if x = 'b' || x = 'B' then
        match radixVal 2 rest (some 0), rest with
        | some v, _ :: _ => .rat ⟨v, 0⟩
        | _, _ => .nan
      else
        match numDecFull cs with
        | some q => .rat q
        | none => .nan
    | '+' :: rest =>
      match numDecFull rest with
      | some q => .rat q
      | none => .nan
    | '-' :: rest =>
      match numDecFull rest with
      | some q => .rat q.neg
      | none => .nan
    | _ =>
      match numDecFull cs with
      | some q => .rat q
      | none => .nan

/-- Parse the longest decimal-literal prefix for `parseFloat`: returns the
value denoted by the prefix, or `none` when no prefix is numeric. -/
def parseFloatBody (cs : List Char) : Option Dec10 :=
  let (ipart, r1) := takeDigits cs
  let fpart :=
    match r1 with
    | '.' :: r2 => (takeDigits r2).1
    | _ => []
  if ipart = [] ∧ fpart = [] then none
  else
    let rest :=
      match r1 with
      | '.' :: r2 => (takeDigits r2).2
      | _ => r1
    match rest with
    | e :: r4 =>
      if e = 'e' || e = 'E' then
        let (sgn, r5) :=
          match r4 with
          | '+' :: r => (1, r)
          | '-' :: r => (-1, r)
          | r => ((1 : Int), r)
        let (ds, _) := takeDigits r5
        if ds = [] then some (decValue ipart fpart 0)
        else some (decValue ipart fpart (sgn * (digitsVal ds : Int)))
      else some (decValue ipart fpart 0)
    | [] => some (decValue ipart fpart 0)

/-- Model of the JavaScript `parseFloat(string)` function: skips leading
whitespace, then reads the longest prefix that is a signed decimal literal
(or `Infinity`), ignoring any trailing characters; NaN when no prefix
parses. -/
def jsParseFloat (s : String) : JsNumber :=
  let cs := s.data.dropWhile isWsChar
  let (neg, cs') :=
    match cs with
    | '+' :: r => (false, r)
    | '-' :: r => (true, r)
    | r => (false, r)
  if "Infinity".data.isPrefixOf cs' then .inf neg
  else
    match parseFloatBody cs' with
    | some q => .rat (if neg then q.neg else q)
    | none => .nan

/-! ## Commission pairs and earned details

`CommissionPair` objects in the store carry `propertyCode` and
`commissionValue` (each a string or null/undefined, modelled as
`Option String`); items enriched by the Calculator additionally carry
`sourceMonth`, `sourceMonthLabel` and `isRollover` (absent, i.e. `none`,
on native current-month items — mirroring the JavaScript object spread). -/

/-- A commission pair, possibly enriched with rollover provenance. -/
structure PairItem where
  propertyCode : Option String
  commissionValue : Option String
  sourceMonth : Option String := none
  sourceMonthLabel : Option String := none
  isRollover : Option Bool := none
  deriving DecidableEq, Repr

/-- One earned (paid) record: confirmation that a property's commission was
paid. `none` models null/undefined; the amount itself is never computed
with by the rollover core, only its presence is tested. -/
structure EarnedDetail where
  propertyCode : Option String
  commission : Option Int
  deriving DecidableEq, Repr

/-- The normalised earned property codes:
`earnedDetails.map(d => d.propertyCode?.trim().toLowerCase()).filter(Boolean)`. -/
def earnedCodesOf (earnedDetails : List EarnedDetail) : List String :=
  (earnedDetails.filterMap (fun d => d.propertyCode.map normCode)).filter
    (fun c => c ≠ "")

/-- The filter predicate of `getIncompleteCommissions`, on one
(possibly null) pair. -/
def incompletePred (earnedCodes : List String) (op : Option PairItem) : Bool :=
  match op with
  | none => false
  | some pair =>
    match pair.commissionValue with
    | none => false
    | some cv =>
      if cv = "" || cv = "null" then false
      else
        let numValue := jsParseFloat cv
        if numValue.isNaN || numValue.isZero then false
        else
          let normalizedCode := (pair.propertyCode.map normCode).getD ""
          normalizedCode ≠ "" && !(earnedCodes.contains normalizedCode)

/-- Model of `getIncompleteCommissions(commissionPairs, earnedDetails)`:
the pairs that are valid (non-null commission value parsing to a non-NaN,
non-zero number, non-empty normalised property code) and not present in the
earned codes. List elements may be null (`none`), as in the stored data;
`earnedDetails` elements are the non-null records the callers pass. -/
def getIncompleteCommissions (commissionPairs : List (Option PairItem))
    (earnedDetails : List EarnedDetail) : List (Option PairItem) :=
  commissionPairs.filter (incompletePred (earnedCodesOf earnedDetails))

/-- The callers' well-formedness filter on raw earned details:
`(agent.earnedDetails || []).filter(d => d && d.propertyCode && d.commission
!== null && d.commission !== undefined)`. Raw elements may be null
(`none`). -/
def earnedFilter (raw : List (Option EarnedDetail)) : List EarnedDetail :=
  raw.filterMap (fun od =>
    match od with
    | none => none
    | some d =>
      match d.propertyCode with
      | none => none
      | some code =>
        if code = "" then none
        else if d.commission.isSome then some d else none)

/-! ## Previous-month computation

`getPreviousMonth` splits on `-`, coerces the two parts with `Number`, and
builds `new Date(year, month - 2, 1)`. The `Date` constructor is modelled
by `mkDateYM`: `ToIntegerOrInfinity` truncation, the 1900 offset for
two-digit years, month normalisation into the year, and the invalid-date
range clip. -/

/-- Model of `new Date(y, m, 1)` restricted to the fields the code reads:
returns `(getFullYear(), getMonth())`, or `none` for an invalid date (NaN,
infinite or out-of-range arguments). -/
def mkDateYM (y m : JsNumber) : Option (Int × Nat) :=
  match y, m with
  | .rat a, .rat b =>
    let yi := a.trunc
    let mi := b.trunc
    let yr := if 0 ≤ yi ∧ yi ≤ 99 then 1900 + yi else yi
    let ym := yr + Int.fdiv mi 12
    let mn := (Int.emod mi 12).toNat
    if -271821 ≤ ym ∧ ym ≤ 275760 then some (ym, mn) else none
  | _, _ => none

/-- Model of `getPreviousMonth(monthStr)` from the rollover utilities:
falsy input gives null; otherwise the string is split on `-`, the parts
are coerced with `Number`, and the result is formatted from
`new Date(year, month - 2, 1)`. An invalid date formats as `"NaN-NaN"`
(NaN year and month), exactly as the JavaScript template literal does;
nothing in the body throws, so the `catch` branch is unreachable. -/
def getPreviousMonth (monthStr : String) : Option String :=
  if monthStr = "" then none
  else
    let parts := jsSplit '-' monthStr
    let year := jsToNumber (parts.headD "")
    let monthMinus2 :=
      match parts.get? 1 with
      | some t => (jsToNumber t).subNat 2
      | none => JsNumber.nan
    match mkDateYM year monthMinus2 with
    | some (yr, mn) => some (intDec yr ++ "-" ++ pad2 (mn + 1))
    | none => some "NaN-NaN"

/-- English month names, for `formatMonthLabel`. -/
def monthName : Nat → String
  | 1 => "January" | 2 => "February" | 3 => "March" | 4 => "April"
  | 5 => "May" | 6 => "June" | 7 => "July" | 8 => "August"
  | 9 => "September" | 10 => "October" | 11 => "November" | 12 => "December"
  | _ => ""

/-- Model of `formatMonthLabel(monthStr)`: an opaque display label
(`toLocaleDateString('en-US', {month:'long', year:'numeric'})` on
`new Date(monthStr + '-01')`). The claims never inspect its content; it is
modelled for well-formed `YYYY-MM` input, with the JavaScript
`"Invalid Date"` fallback otherwise. -/
def formatMonthLabel (monthStr : String) : String :=
  if monthStr = "" then "Unknown"
  else
    match jsSplit '-' monthStr with
    | [ys, ms] =>
      match jsToNumber ys, jsToNumber ms with
      | .rat y, .rat m =>
        if y.exp10 = 0 ∧ m.exp10 = 0 ∧ 1 ≤ m.mant ∧ m.mant ≤ 12 then
          monthName m.mant.toNat ++ " " ++ intDec y.mant
        else "Invalid Date"
      | _, _ => "Invalid Date"
    | _ => "Invalid Date"

/-! ## JavaScript values and JSON

`parseCommissionPairs` receives arbitrary stored values (arrays, strings,
numbers, …) and runs `JSON.parse` on strings. `JsValue` is the value
universe; `jsonParse`/`stringifyJs` model `JSON.parse`/`JSON.stringify`.
Finite numbers are `ℚ` (exact for everything the repository stores); NaN
and infinities never occur in stored JSON and are not part of the type. -/

/-- A JavaScript value, as stored or produced by `JSON.parse`. -/
inductive JsValue where
  | undef : JsValue
  | nullV : JsValue
  | boolV (b : Bool) : JsValue
  | numV (d : Dec10) : JsValue
  | strV (s : String) : JsValue
  | arrV (elems : List JsValue) : JsValue
  | objV (fields : List (String × JsValue)) : JsValue
  deriving Repr

/-- JavaScript truthiness. (`numV` models finite numbers, so the NaN case
does not arise; stored data never contains NaN.) -/
def jsTruthy : JsValue → Bool
  | .undef => false
  | .nullV => false
  | .boolV b => b
  | .numV d => !d.isZero
  | .strV s => s ≠ ""
  | .arrV _ => true
  | .objV _ => true

/-- Lowercase hexadecimal digit character. -/
def hexDigitChar : Nat → Char
  | 0 => '0' | 1 => '1' | 2 => '2' | 3 => '3' | 4 => '4'
  | 5 => '5' | 6 => '6' | 7 => '7' | 8 => '8' | 9 => '9'
  | 10 => 'a' | 11 => 'b' | 12 => 'c' | 13 => 'd' | 14 => 'e' | _ => 'f'

/-- JSON string escaping of one character, as `JSON.stringify` performs it:
quote and backslash get two-character escapes, the named control characters
use their short escapes, other control characters use `\u00xx`, and
everything else is emitted verbatim. -/
def escapeChar (c : Char) : List Char :=
  if c = '"' then ['\\', '"']
  else if c = '\\' then ['\\', '\\']
  else if c = '\x08' then ['\\', 'b']
  else if c = '\x0c' then ['\\', 'f']
  else if c = '\n' then ['\\', 'n']
  else if c = '\r' then ['\\', 'r']
  else if c = '\t' then ['\\', 't']
  else if c.toNat < 32 then
    ['\\', 'u', '0', '0', hexDigitChar (c.toNat / 16), hexDigitChar (c.toNat % 16)]
  else [c]

/-- JSON string escaping of a character list. -/
def escapeChars (cs : List Char) : List Char :=
  (cs.map escapeChar).flatten

/-- Strip trailing zero digits (for printing decimal fractions the way
JavaScript does). -/
def trimZeros (cs : List Char) : List Char :=
  (cs.reverse.dropWhile (fun c => c = '0')).reverse

/-- Decimal notation of a `Dec10`, as `JSON.stringify` prints the numbers
the repository stores (integers and short decimal fractions; exponent
notation for extreme magnitudes is not modelled, being unreachable). -/
def qNumChars (d : Dec10) : List Char :=
  let sgn : List Char := if d.mant < 0 then ['-'] else []
  let m := d.mant.natAbs
  if 0 ≤ d.exp10 then
    sgn ++ natDecChars (m * 10 ^ d.exp10.toNat)
  else
    let k := (-d.exp10).toNat
    let ip := m / 10 ^ k
    let fr := m % 10 ^ k
    if fr = 0 then sgn ++ natDecChars ip
    else
      let frDigits := trimZeros (List.replicate (k - (natDecChars fr).length) '0' ++ natDecChars fr)
      sgn ++ natDecChars ip ++ '.' :: frDigits

mutual

/-- Model of `JSON.stringify` on a value (character list). A top-level
`undefined` stringifies as an array element does, i.e. `null`; the
repository only ever stringifies arrays of objects with defined fields. -/
def strfyV : JsValue → List Char
  | .undef => "null".data
  | .nullV => "null".data
  | .boolV true => "true".data
  | .boolV false => "false".data
  | .numV q => qNumChars q
  | .strV s => '"' :: (escapeChars s.data ++ ['"'])
  | .arrV es => '[' :: (strfyElems es ++ [']'])
  | .objV fs => '{' :: (strfyFields fs ++ ['}'])

/-- Comma-separated stringification of array elements. -/
def strfyElems : List JsValue → List Char
  | [] => []
  | [v] => strfyV v
  | v :: v' :: vs => strfyV v ++ ',' :: strfyElems (v' :: vs)

/-- Comma-separated stringification of object fields. -/
def strfyFields : List (String × JsValue) → List Char
  | [] => []
  | [(k, v)] => '"' :: (escapeChars k.data ++ '"' :: ':' :: strfyV v)
  | (k, v) :: f :: fs =>
    ('"' :: (escapeChars k.data ++ '"' :: ':' :: strfyV v)) ++ ',' :: strfyFields (f :: fs)

end

/-- Model of `JSON.stringify`, producing a string. -/
def stringifyJs (v : JsValue) : String :=
  ⟨strfyV v⟩

/-- The whitespace accepted between JSON tokens. -/
def isJsonWs (c : Char) : Bool :=
  c = ' ' || c = '\t' || c = '\n' || c = '\r'

/-- Skip JSON inter-token whitespace. -/
def skipWs (cs : List Char) : List Char :=
  cs.dropWhile isJsonWs

/-- Parse the body of a JSON string literal (after the opening quote):
returns the decoded characters and the input following the closing quote.
Escape sequences follow the JSON grammar; a `\uXXXX` code outside the
scalar range degrades like an unpaired surrogate (unreachable from the
repository's data). -/
def parseStrBody : List Char → Option (List Char × List Char)
  | [] => none
  | c :: rest =>
    if c = '"' then some ([], rest)
    else if c = '\\' then
      match rest with
      | 'u' :: h1 :: h2 :: h3 :: h4 :: rest' =>
        (match radixDigit 16 h1, radixDigit 16 h2, radixDigit 16 h3, radixDigit 16 h4 with
         | some a, some b, some cc, some d =>
           (match parseStrBody rest' with
            | some (s, r) => some (Char.ofNat (((a * 16 + b) * 16 + cc) * 16 + d) :: s, r)
            | none => none)
         | _, _, _, _ => none)
      | e :: rest' =>
        (match
           (if e = '"' then some '"'
            else if e = '\\' then some '\\'
            else if e = '/' then some '/'
            else if e = 'b' then some '\x08'
            else if e = 'f' then some '\x0c'
            else if e = 'n' then some '\n'
            else if e = 'r' then some '\r'
            else if e = 't' then some '\t'
            else none : Option Char) with
         | some c' =>
           (match parseStrBody rest' with
            | some (s, r) => some (c' :: s, r)
            | none => none)
         | none => none)
      | [] => none
    else if c.toNat < 32 then none
    else
      match parseStrBody rest with
      | some (s, r) => some (c :: s, r)
      | none => none
termination_by structural cs => cs

/-- Parse the optional fraction of a JSON number token: its digits (empty
when absent) and the remaining input; `none` models a bare decimal
point. -/
def numFrac : List Char → Option (List Char × List Char)
  | '.' :: r2 =>
    let (fp, r3) := takeDigits r2
    if fp = [] then none else some (fp, r3)
  | r1 => some ([], r1)

/-- Parse the optional exponent of a JSON number token: its integer value
(zero when absent) and the remaining input; `none` models a marker without
digits. -/
def numExp : List Char → Option (Int × List Char)
  | e :: r4 =>
    if e = 'e' || e = 'E' then
      let (sgn, r5) :=
        match r4 with
        | '+' :: r => (1, r)
        | '-' :: r => (-1, r)
        | r => ((1 : Int), r)
      let (ds, r6) := takeDigits r5
      if ds = [] then none
      else some (sgn * (digitsVal ds : Int), r6)
    else some (0, e :: r4)
  | [] => some (0, [])

/-- Parse the unsigned part of a JSON number token (integer part without
superfluous leading zeros, optional fraction and exponent), negating the
result when the token carried a minus sign. -/
def parseNumBody (neg : Bool) : List Char → Option (Dec10 × List Char)
  | c :: cs2 =>
    if ¬ c.isDigit then none
    else
      let (ipart, r1) := if c = '0' then ([c], cs2) else takeDigits (c :: cs2)
      match numFrac r1 with
      | none => none
      | some (fpart, r3) =>
        match numExp r3 with
        | none => none
        | some (ex, r) =>
          let q := decValue ipart fpart ex
          some (if neg then q.neg else q, r)
  | [] => none

/-- Parse a JSON number token: optional minus sign, then the unsigned
body. -/
def parseJsonNumber (cs : List Char) : Option (Dec10 × List Char) :=
  match cs with
  | '-' :: r => parseNumBody true r
  | _ => parseNumBody false cs

mutual

/-- Fuel-indexed JSON value parser (the fuel strictly bounds the token
nesting; `jsonFuel` below always suffices). -/
def parseVal : Nat → List Char → Option (JsValue × List Char)
  | 0, _ => none
  | f + 1, cs =>
    match skipWs cs with
    | c :: rest =>
      if c = '[' then parseArrStart f rest
      else if c = '{' then parseObjStart f rest
      else if c = '"' then
        (match parseStrBody rest with
         | some (s, r) => some (.strV ⟨s⟩, r)
         | none => none)
      else if c = 't' then
        (match rest with
         | 'r' :: 'u' :: 'e' :: r => some (.boolV true, r)
         | _ => none)
      else if c = 'f' then
        (match rest with
         | 'a' :: 'l' :: 's' :: 'e' :: r => some (.boolV false, r)
         | _ => none)
      else if c = 'n' then
        (match rest with
         | 'u' :: 'l' :: 'l' :: r => some (.nullV, r)
         | _ => none)
      else
        (match parseJsonNumber (c :: rest) with
         | some (q, r) => some (.numV q, r)
         | none => none)
    | [] => none

/-- Parse an array body after the opening bracket. -/
def parseArrStart : Nat → List Char → Option (JsValue × List Char)
  | 0, _ => none
  | f + 1, cs =>
    match skipWs cs with
    | c :: rest =>
      if c = ']' then some (.arrV [], rest)
      else
        (match parseArrItems f cs with
         | some (vs, r) => some (.arrV vs, r)
         | none => none)
    | [] =>
      (match parseArrItems f cs with
       | some (vs, r) => some (.arrV vs, r)
       | none => none)

/-- Parse one or more comma-separated array elements and the closing
bracket. -/
def parseArrItems : Nat → List Char → Option (List JsValue × List Char)
  | 0, _ => none
  | f + 1, cs =>
    match parseVal f cs with
    | none => none
    | some (v, r) =>
      match skipWs r with
      | c :: r2 =>
        if c = ',' then
          (match parseArrItems f r2 with
           | some (vs, r3) => some (v :: vs, r3)
           | none => none)
        else if c = ']' then some ([v], r2)
        else none
      | [] => none

/-- Parse an object body after the opening brace. -/
def parseObjStart : Nat → List Char → Option (JsValue × List Char)
  | 0, _ => none
  | f + 1, cs =>
    match skipWs cs with
    | c :: rest =>
      if c = '}' then some (.objV [], rest)
      else
        (match parseObjItems f cs with
         | some (fs, r) => some (.objV fs, r)
         | none => none)
    | [] =>
      (match parseObjItems f cs with
       | some (fs, r) => some (.objV fs, r)
       | none => none)

/-- Parse one or more comma-separated object members and the closing
brace. -/
def parseObjItems : Nat → List Char → Option (List (String × JsValue) × List Char)
  | 0, _ => none
  | f + 1, cs =>
    match skipWs cs with
    | c0 :: rest =>
      if c0 = '"' then
        (match parseStrBody rest with
         | some (k, r1) =>
           (match skipWs r1 with
            | c1 :: r2 =>
              if c1 = ':' then
                (match parseVal f r2 with
                 | some (v, r3) =>
                   (match skipWs r3 with
                    | c2 :: r4 =>
                      if c2 = ',' then
                        (match parseObjItems f r4 with
                         | some (fs, r5) => some ((⟨k⟩, v) :: fs, r5)
                         | none => none)
                      else if c2 = '}' then some ([(⟨k⟩, v)], r4)
                      else none
                    | [] => none)
                 | none => none)
              else none
            | [] => none)
         | none => none)
      else none
    | [] => none

end

/-- Fuel that always suffices for `parseVal` on this input (each nesting
level consumes input characters). -/
def jsonFuel (s : String) : Nat :=
  2 * s.data.length + 4

/-- Model of `JSON.parse`: parse one value, allow trailing whitespace only;
`none` models the thrown `SyntaxError`. -/
def jsonParse (s : String) : Option JsValue :=
  match parseVal (jsonFuel s) s.data with
  | some (v, rest) => if skipWs rest = [] then some v else none
  | none => none

/-! ## The Commission-Pair Normalizer -/

/-- One scan of `rawData.replace(/\\"/g, '"')`: each (leftmost,
non-overlapping) backslash-quote pair becomes a quote. -/
def cleanBackslashQuotes : List Char → List Char
  | '\\' :: '"' :: rest => '"' :: cleanBackslashQuotes rest
  | c :: rest => c :: cleanBackslashQuotes rest
  | [] => []

/-- Legacy-cleaning branch of `parseCommissionPairs`: replace escaped
quotes, strip one layer of surrounding quotes if both are present, then
parse; a non-array result (or parse failure) yields the empty list. -/
def tryCleanParse (raw : List Char) : List JsValue :=
  let clean0 := cleanBackslashQuotes raw
  let clean1 :=
    if clean0.headD ' ' = '"' ∧ clean0.getLast? = some '"'
    then (clean0.drop 1).dropLast else clean0
  match jsonParse ⟨clean1⟩ with
  | some (.arrV es) => es
  | _ => []

/-- Fuel-indexed body of `parseCommissionPairs`; the fuel bounds the
double-encoding unwrap depth (each unwrapped JSON string literal is
strictly shorter than its encoding, so `String.length` fuel suffices). -/
def parseCommissionPairsFuel : Nat → JsValue → List JsValue
  | fuel, raw =>
    if ¬ jsTruthy raw then []
    else
      match raw with
      | .arrV es => es
      | .strV s =>
        (match jsonParse s with
         | some (.arrV es) => es
         | some (.strV inner) =>
           (match jsonParse inner with
            | some (.arrV es) => es
            | _ =>
              match fuel with
              | 0 => []
              | f + 1 => parseCommissionPairsFuel f (.strV inner))
         | _ => tryCleanParse s.data)
      | _ => []

/-- Model of `parseCommissionPairs(rawData)`: falsy input or a
non-array/non-string value gives the empty list; arrays pass through; a
string is parsed directly, unwrapped when double-encoded, or
legacy-cleaned. Never throws (every parse failure is caught). -/
def parseCommissionPairs (raw : JsValue) : List JsValue :=
  parseCommissionPairsFuel
    (match raw with
     | .strV s => s.length
     | _ => 0) raw

/-- Escaping every double quote (`s.replace(/"/g, '\\"')`), the encoding
the round-trip claim applies between `JSON.stringify` and the
Normalizer. -/
def escapeAllQuotes (cs : List Char) : List Char :=
  (cs.map (fun c => if c = '"' then ['\\', '"'] else [c])).flatten

/-! ## The document store

The rollover core reads and writes three collections. Stored JSON strings
of item lists are modelled structurally (`JSON.stringify`/`JSON.parse` of
the repository's own output round-trips, as verified at the JSON level
below, so serialisation is the identity on this abstraction); records are
identified by unique `_id`s, so a per-`_id` `updateOne` loop is modelled as
a record-wise map. -/

/-- Stored value of the `rollover_commission_list` field. The gap query
(`$exists:false`, `null`, `''`, `'[]'`) matches `missing`, `nullF` and
`strF []` (which stands for both the empty string and the literal `'[]'`,
each deserialising to no items); a stored non-empty JSON string is
`strF items`, and a raw (non-string) array value — which the gap query
never matches — is `arrF items`. -/
inductive RolloverField where
  | missing : RolloverField
  | nullF : RolloverField
  | strF (items : List PairItem) : RolloverField
  | arrF (items : List PairItem) : RolloverField
  deriving DecidableEq, Repr

/-- Whether the gap query of `applyRolloverToMissingRecords` selects this
field value. -/
def isMissingR : RolloverField → Bool
  | .missing => true
  | .nullF => true
  | .strF items => items.isEmpty
  | .arrF _ => false

/-- One agent-month document of the `leader_board` collection.
`commission_property_pair` is modelled post-Normalizer: the stored
string-or-array value deserialises to the same pair list on every read
(the data is unchanged between reads), with null entries preserved. -/
structure LbRecord where
  month : String
  userIdMonthId : Option String
  agentName : Option String
  commission_property_pair : List (Option PairItem)
  earnedDetails : List (Option EarnedDetail)
  rollover_commission_list : RolloverField
  last_rollover_update : Option Nat
  deriving DecidableEq, Repr

/-- One persisted calculation-cache document of the `rollover_items`
collection (`rolloverItems` is stored as a JSON string of the enriched
list, modelled structurally). -/
structure RiRecord where
  targetMonth : String
  agentKey : String
  sourceMonth : String
  rolloverItems : List PairItem
  itemCount : Nat
  calculatedAt : Nat
  deriving DecidableEq, Repr

/-- One document of the `rollover_status` collection. -/
structure StatusRecord where
  month : String
  applied : Bool
  appliedAt : Nat
  itemsMerged : Nat
  reason : String
  sourceMonth : Option String
  deriving DecidableEq, Repr

/-- The document store visible to the rollover core. -/
structure DB where
  leader_board : List LbRecord
  rollover_items : List RiRecord
  rollover_status : List StatusRecord
  deriving DecidableEq, Repr

/-- The fallback join key: `(agent['Agent Name'] || '').trim().toLowerCase()`. -/
def nameKey (name : Option String) : String :=
  normCode (name.getD "")

/-- The Agent Key Resolver: the part of `userIdMonthId` before the first
underscore when the field is a non-empty string containing one, else the
normalised display name. -/
def resolveKey (uim name : Option String) : String :=
  match uim with
  | some s =>
    if s ≠ "" && s.contains '_' then (jsSplit '_' s).headD ""
    else nameKey name
  | none => nameKey name

/-- Upsert into `rollover_status`, keyed by month (`updateOne` with
`upsert: true` replaces the first matching document or appends). -/
def upsertStatus : List StatusRecord → StatusRecord → List StatusRecord
  | [], r => [r]
  | s :: ss, r => if s.month = r.month then r :: ss else s :: upsertStatus ss r

/-- Model of `markRolloverAsApplied(db, month, itemsMerged, reason,
sourceMonth)`. -/
def markRolloverAsApplied (db : DB) (month : String) (itemsMerged : Nat)
    (reason : String) (sourceMonth : Option String) (now : Nat) : DB :=
  { db with
    rollover_status :=
      upsertStatus db.rollover_status ⟨month, true, now, itemsMerged, reason, sourceMonth⟩ }

/-- Upsert into `rollover_items`, keyed by (targetMonth, agentKey). -/
def upsertRi : List RiRecord → RiRecord → List RiRecord
  | [], r => [r]
  | s :: ss, r =>
    if s.targetMonth = r.targetMonth ∧ s.agentKey = r.agentKey then r :: ss
    else s :: upsertRi ss r

/-- The in-memory rollover mapping (a JavaScript `Map` in insertion order:
`set` replaces in place or appends). -/
abbrev RolloverMap := List (String × List PairItem)

/-- Model of `Map.prototype.set`. -/
def mapSet : RolloverMap → String → List PairItem → RolloverMap
  | [], k, v => [(k, v)]
  | (k', v') :: m, k, v =>
    if k' = k then (k, v) :: m else (k', v') :: mapSet m k v

/-- Model of `Map.prototype.get`. -/
def mapGet : RolloverMap → String → Option (List PairItem)
  | [], _ => none
  | (k', v) :: m, k => if k' = k then some v else mapGet m k

/-- Enrichment of one incomplete item by the Calculator:
`{...item, sourceMonth, sourceMonthLabel, isRollover: true}`. -/
def enrichItem (previousMonth label : String) (p : PairItem) : PairItem :=
  { p with
    sourceMonth := some previousMonth
    sourceMonthLabel := some label
    isRollover := some true }

/-- The incomplete items of one previous-month record: normalised pairs
filtered through `getIncompleteCommissions` against the well-formed earned
details (the JavaScript filter keeps the original, necessarily non-null,
elements; `filterMap id` extracts them). -/
def incompleteOf (a : LbRecord) : List PairItem :=
  (getIncompleteCommissions a.commission_property_pair (earnedFilter a.earnedDetails)).filterMap id

/-! ## The Rollover Calculator (two-phase variant) -/

/-- The contribution of one previous-month record to the rollover mapping
(two-phase variant: the key prefers `userIdMonthId`): `none` when the key
is empty or there are no incomplete items, else the key and the enriched
item list. -/
def calcEntry (previousMonth : String) (a : LbRecord) : Option (String × List PairItem) :=
  let key := resolveKey a.userIdMonthId a.agentName
  if key = "" then none
  else
    let incomplete := incompleteOf a
    if incomplete = [] then none
    else some (key, incomplete.map (enrichItem previousMonth (formatMonthLabel previousMonth)))

/-- One step of the Calculator's loop over previous-month records: set the
mapping and upsert the persisted cache. -/
def ensureStep (targetMonth previousMonth : String) (now : Nat)
    (acc : RolloverMap × List RiRecord) (a : LbRecord) : RolloverMap × List RiRecord :=
  match calcEntry previousMonth a with
  | none => acc
  | some (k, items) =>
    (mapSet acc.1 k items,
     upsertRi acc.2 ⟨targetMonth, k, previousMonth, items, items.length, now⟩)

/-- Reconstruction of the mapping from persisted cache records (the fast
path): entries with a non-empty deserialised item list are set in order. -/
def loadMap (recs : List RiRecord) : RolloverMap :=
  recs.foldl
    (fun m r => if r.rolloverItems ≠ [] then mapSet m r.agentKey r.rolloverItems else m) []

/-- Model of `ensureRolloverItemsCalculated(db, targetMonth,
previousMonth)`: load the persisted mapping when any cache entry exists for
the target month; otherwise compute it from the previous month's records,
persisting each agent's enriched list. -/
def ensureRolloverItemsCalculated (db : DB) (targetMonth previousMonth : String)
    (now : Nat) : RolloverMap × DB :=
  let existing := db.rollover_items.filter (fun r => r.targetMonth = targetMonth)
  if existing ≠ [] then (loadMap existing, db)
  else
    let previousData := db.leader_board.filter (fun r => r.month = previousMonth)
    if previousData = [] then ([], db)
    else
      let mri := previousData.foldl (ensureStep targetMonth previousMonth now) ([], db.rollover_items)
      (mri.1, { db with rollover_items := mri.2 })

/-! ## The Rollover Applicator (two-phase variant) -/

/-- The item list `applyRolloverToMissingRecords` would write to a record:
`some items` exactly when the record is in the target month, the gap query
selects it, and the mapping has a non-empty entry for its key. -/
def applyTargets (targetMonth : String) (m : RolloverMap) (r : LbRecord) :
    Option (List PairItem) :=
  if r.month = targetMonth ∧ isMissingR r.rollover_commission_list then
    match mapGet m (resolveKey r.userIdMonthId r.agentName) with
    | some items => if items ≠ [] then some items else none
    | none => none
  else none

/-- The per-record effect of the Applicator: write the serialised item list
and stamp the update time on selected records, leave every other record
untouched. -/
def applyRecStep (targetMonth : String) (m : RolloverMap) (now : Nat)
    (r : LbRecord) : LbRecord :=
  match applyTargets targetMonth m r with
  | some items =>
    { r with rollover_commission_list := .strF items, last_rollover_update := some now }
  | none => r

/-- The structured result object the rollover entry points return. -/
structure ApplyResult where
  applied : Bool
  itemsMerged : Nat
  agentsUpdated : Option Nat
  error : Option String
  message : Option String
  deriving DecidableEq, Repr

/-- Model of `applyRolloverToMissingRecords(db, targetMonth, rolloverMap)`:
fill every selected gap record, count the writes, and upsert the
`success_continuous_sync` status. -/
def applyRolloverToMissingRecords (db : DB) (targetMonth : String)
    (m : RolloverMap) (now : Nat) : DB × ApplyResult :=
  let written := db.leader_board.filterMap (applyTargets targetMonth m)
  let updatedCount := written.length
  let totalMergedItems := (written.map List.length).sum
  let db1 := { db with leader_board := db.leader_board.map (applyRecStep targetMonth m now) }
  let db2 := markRolloverAsApplied db1 targetMonth totalMergedItems "success_continuous_sync" none now
  (db2,
   ⟨true, totalMergedItems, some updatedCount, none,
    some (if updatedCount > 0
          then "Applied rollover to " ++ natDec updatedCount ++ " records."
          else "All records already have rollover data.")⟩)

/-- Model of the two-phase `checkAndApplyRollover(db, targetMonth)`:
previous-month computation, calculate-or-load, then gap-filling apply
(skipped, with no status write, when the mapping is empty). -/
def checkAndApplyRollover (db : DB) (targetMonth : String) (now : Nat) :
    DB × ApplyResult :=
  match getPreviousMonth targetMonth with
  | none => (db, ⟨false, 0, none, some "Could not calculate previous month", none⟩)
  | some previousMonth =>
    let mdb := ensureRolloverItemsCalculated db targetMonth previousMonth now
    if mdb.1 = [] then
      (mdb.2, ⟨true, 0, none, none, some "No rollover items to apply."⟩)
    else
      applyRolloverToMissingRecords mdb.2 targetMonth mdb.1 now

/-! ## The single-phase variant

The first `checkAndApplyRollover` variant merges rollover items directly
into `commission_property_pair`, deduplicating by (property code, source
month). Its previous-month query projects only `Agent Name`,
`commission_property_pair` and `earnedDetails`, so `userIdMonthId` is
absent on those records and the key resolution always takes the name
fallback. -/

/-- The contribution of one previous-month record to the single-phase
mapping (`userIdMonthId` projected away). -/
def calcEntryV1 (previousMonth : String) (a : LbRecord) : Option (String × List PairItem) :=
  let key := resolveKey none a.agentName
  if key = "" then none
  else
    let incomplete := incompleteOf a
    if incomplete = [] then none
    else some (key, incomplete.map (enrichItem previousMonth (formatMonthLabel previousMonth)))

/-- The single-phase mapping for a list of previous-month records. -/
def calcMapV1 (previousMonth : String) (prev : List LbRecord) : RolloverMap :=
  prev.foldl
    (fun acc a =>
      match calcEntryV1 previousMonth a with
      | none => acc
      | some kv => mapSet acc kv.1 kv.2) []

/-- The dedup key of the single-phase merge:
`` `${item.propertyCode?.trim().toLowerCase()}_${item.sourceMonth}` ``
(template interpolation renders an absent field as `"undefined"`). -/
def itemKeyStr (p : PairItem) : String :=
  (match p.propertyCode with
   | some s => normCode s
   | none => "undefined") ++ "_" ++ p.sourceMonth.getD "undefined"

/-- The single-phase merge of one current-month record: append the mapped
items whose dedup key is not already present among the record's existing
rollover-tagged pairs; returns the (possibly updated) record and the
number of items added. -/
def mergeRecord (m : RolloverMap) (now : Nat) (r : LbRecord) : LbRecord × Nat :=
  match mapGet m (resolveKey r.userIdMonthId r.agentName) with
  | some rolloverItems =>
    if rolloverItems ≠ [] then
      let currentPairs := r.commission_property_pair
      let existingKeys :=
        ((currentPairs.filterMap id).filter (fun p => p.isRollover = some true)).map itemKeyStr
      let toAdd := rolloverItems.filter (fun it => ¬ existingKeys.contains (itemKeyStr it))
      if toAdd ≠ [] then
        ({ r with
            commission_property_pair := currentPairs ++ toAdd.map some,
            last_rollover_update := some now },
         toAdd.length)
      else (r, 0)
    else (r, 0)
  | none => (r, 0)

/-- Model of the single-phase `checkAndApplyRollover(db, targetMonth)`. -/
def checkAndApplyRolloverV1 (db : DB) (targetMonth : String) (now : Nat) :
    DB × ApplyResult :=
  match getPreviousMonth targetMonth with
  | none => (db, ⟨false, 0, none, some "Could not calculate previous month", none⟩)
  | some previousMonth =>
    let previousData := db.leader_board.filter (fun r => r.month = previousMonth)
    if previousData = [] then
      (markRolloverAsApplied db targetMonth 0 "no_previous_data" none now,
       ⟨true, 0, none, none, some "No data in previous month to rollover."⟩)
    else
      let m := calcMapV1 previousMonth previousData
      if m = [] then
        (markRolloverAsApplied db targetMonth 0 "no_incomplete_items" none now,
         ⟨true, 0, none, none, some "No incomplete items found to rollover."⟩)
      else
        let lb' := db.leader_board.map
          (fun r => if r.month = targetMonth then (mergeRecord m now r).1 else r)
        let updates := (db.leader_board.filter (fun r => r.month = targetMonth)).map
          (fun r => (mergeRecord m now r).2)
        let totalMergedItems := updates.sum
        let updatedCount := (updates.filter (fun n => n > 0)).length
        let db1 :=
          markRolloverAsApplied { db with leader_board := lb' } targetMonth
            totalMergedItems "success" (some previousMonth) now
        (db1, ⟨true, totalMergedItems, some updatedCount, none, some "Rollover applied successfully."⟩)

/-! ## Iterated application -/

/-- The state after running the two-phase Applicator `n` times for the
same target month and mapping. -/
def applyIter (targetMonth : String) (m : RolloverMap) (now : Nat) :
    Nat → DB → DB
  | 0, db => db
  | n + 1, db =>
    (applyRolloverToMissingRecords (applyIter targetMonth m now n db) targetMonth m now).1

/-- The (propertyCode, sourceMonth) combination of an item, property code
normalised the way the code's dedup rule normalises it. -/
def rKeyOf (p : PairItem) : Option String × Option String :=
  (p.propertyCode.map normCode, p.sourceMonth)

/-- The items stored in a rollover field (empty for gap states). -/
def storedItems : RolloverField → List PairItem
  | .missing => []
  | .nullF => []
  | .strF items => items
  | .arrF items => items

/-! ## Lemmas about the Applicator -/

/-- The Applicator changes `leader_board` exactly by the per-record step. -/
theorem applyRollover_leader_board (db : DB) (tm : String) (m : RolloverMap) (now : Nat) :
    ((applyRolloverToMissingRecords db tm m now).1).leader_board
      = db.leader_board.map (applyRecStep tm m now) := rfl

/-- Iterating the Applicator iterates the per-record step. -/
theorem applyIter_leader_board (tm : String) (m : RolloverMap) (now N : Nat) (db : DB) :
    (applyIter tm m now N db).leader_board
      = db.leader_board.map ((applyRecStep tm m now)^[N]) := by
  induction N with
  | zero => simp [applyIter]
  | succ n ih =>
    rw [applyIter, applyRollover_leader_board, ih, List.map_map,
      Function.iterate_succ']

/-- A write target is always a non-empty item list. -/
theorem applyTargets_ne_nil {tm : String} {m : RolloverMap} {r : LbRecord}
    {items : List PairItem} (h : applyTargets tm m r = some items) : items ≠ [] := by
  unfold applyTargets at h
  split at h
  · cases hget : mapGet m (resolveKey r.userIdMonthId r.agentName) with
    | none => rw [hget] at h; exact absurd h (by simp)
    | some its =>
      rw [hget] at h
      dsimp only at h
      by_cases hne : its = []
      · rw [if_neg (by simp [hne])] at h; exact absurd h (by simp)
      · rw [if_pos hne] at h
        cases h
        exact hne
  · exact absurd h (by simp)

/-- Records the gap query does not select are untouched by the per-record
step. -/
theorem applyRecStep_of_not_missing {tm : String} {m : RolloverMap} {now : Nat}
    {r : LbRecord} (h : isMissingR r.rollover_commission_list = false) :
    applyRecStep tm m now r = r := by
  unfold applyRecStep applyTargets
  rw [if_neg (by simp [h])]

/-- The per-record Applicator step is idempotent. -/
theorem applyRecStep_idem (tm : String) (m : RolloverMap) (now : Nat) (r : LbRecord) :
    applyRecStep tm m now (applyRecStep tm m now r) = applyRecStep tm m now r := by
  cases htarget : applyTargets tm m r with
  | none => simp [applyRecStep, htarget]
  | some items =>
    have hne := applyTargets_ne_nil htarget
    have hstep : applyRecStep tm m now r =
        { r with rollover_commission_list := .strF items, last_rollover_update := some now } := by
      simp [applyRecStep, htarget]
    rw [hstep]
    exact applyRecStep_of_not_missing (by simp [isMissingR, hne])

/-- Iterating the per-record step at least once equals one application. -/
theorem applyRecStep_iterate {tm : String} {m : RolloverMap} {now N : Nat}
    (hN : 1 ≤ N) (r : LbRecord) :
    (applyRecStep tm m now)^[N] r = applyRecStep tm m now r := by
  obtain ⟨n, rfl⟩ : ∃ n, N = n + 1 := ⟨N - 1, by omega⟩
  rw [Function.iterate_succ_apply]
  exact Function.iterate_fixed (applyRecStep_idem tm m now r) n

/-! ## Claim theorems: selector, normalizer totality, applicator -/

/-- C4: the Incomplete-Item Selector on pairs A:"100", B:"0", C:null with
earned detail A:100 returns the empty sequence (B excluded for zero value,
C for null value, A as earned). -/
theorem c4_selector_exclusion :
    getIncompleteCommissions
      [some ⟨some "A", some "100", none, none, none⟩,
       some ⟨some "B", some "0", none, none, none⟩,
       some ⟨some "C", none, none, none, none⟩]
      [⟨some "A", some 100⟩] = [] := by decide

/-- C10: the Normalizer is total by construction (it returns a list for
every `JsValue`, every parse failure being caught), and any truthy value
that is neither an array nor a string produces the empty list. -/
theorem c10_normalizer_total (v : JsValue) (h1 : jsTruthy v = true)
    (h2 : ∀ es, v ≠ JsValue.arrV es) (h3 : ∀ s, v ≠ JsValue.strV s) :
    parseCommissionPairs v = [] := by
  cases v with
  | undef => simp [jsTruthy] at h1
  | nullV => simp [jsTruthy] at h1
  | boolV b => simp [parseCommissionPairs, parseCommissionPairsFuel, h1]
  | numV d => simp [parseCommissionPairs, parseCommissionPairsFuel, h1]
  | objV fs => simp [parseCommissionPairs, parseCommissionPairsFuel, h1]
  | strV s => exact absurd rfl (h3 s)
  | arrV es => exact absurd rfl (h2 es)

/-- Witness for C10, at the truthy non-array non-string value `5`. -/
theorem c10_witness :
    jsTruthy (JsValue.numV ⟨5, 0⟩) = true ∧ parseCommissionPairs (JsValue.numV ⟨5, 0⟩) = [] :=
  ⟨by decide,
   c10_normalizer_total (JsValue.numV ⟨5, 0⟩) (by decide)
     (fun es h => by cases h) (fun s h => by cases h)⟩

/-- C3: the Applicator is gap-filling only. Any number of runs transforms
the target-month collection record-wise by the iterated per-record step,
and a record whose rollover field is non-empty (not absent, null, `''` or
`'[]'`) is left completely unchanged by that step — every field byte for
byte — regardless of the mapping and of how often apply runs. -/
theorem c3_gap_filling (db : DB) (tm : String) (m : RolloverMap) (now N : Nat)
    (r : LbRecord) (h : isMissingR r.rollover_commission_list = false) :
    (applyIter tm m now N db).leader_board
        = db.leader_board.map ((applyRecStep tm m now)^[N]) ∧
    (applyRecStep tm m now)^[N] r = r :=
  ⟨applyIter_leader_board tm m now N db,
   Function.iterate_fixed (applyRecStep_of_not_missing h) N⟩

/-- Witness for C3: a populated record is untouched by two runs. -/
theorem c3_witness :
    isMissingR (LbRecord.rollover_commission_list
        ⟨"2026-02", none, some "k", [], [],
         .strF [⟨some "a", some "5", some "2026-01", none, some true⟩], none⟩) = false ∧
    ((applyIter "2026-02" [("k", [⟨some "b", some "7", some "2026-01", none, some true⟩])] 0 2
        ⟨[⟨"2026-02", none, some "k", [], [],
           .strF [⟨some "a", some "5", some "2026-01", none, some true⟩], none⟩], [], []⟩).leader_board
      = [⟨"2026-02", none, some "k", [], [],
          .strF [⟨some "a", some "5", some "2026-01", none, some true⟩], none⟩].map
          ((applyRecStep "2026-02" [("k", [⟨some "b", some "7", some "2026-01", none, some true⟩])] 0)^[2]) ∧
     (applyRecStep "2026-02" [("k", [⟨some "b", some "7", some "2026-01", none, some true⟩])] 0)^[2]
        ⟨"2026-02", none, some "k", [], [],
         .strF [⟨some "a", some "5", some "2026-01", none, some true⟩], none⟩
      = ⟨"2026-02", none, some "k", [], [],
         .strF [⟨some "a", some "5", some "2026-01", none, some true⟩], none⟩) :=
  ⟨by decide,
   c3_gap_filling _ "2026-02" [("k", [⟨some "b", some "7", some "2026-01", none, some true⟩])] 0 2 _
     (by decide)⟩

/-- Number of occurrences of one (propertyCode, sourceMonth) combination
in a list of combinations. -/
def keyCount (c : Option String × Option String)
    (l : List (Option String × Option String)) : Nat :=
  (l.filter (fun x => x = c)).length

/-- In a duplicate-free list every member occurs exactly once. -/
theorem keyCount_eq_one {l : List (Option String × Option String)}
    {c : Option String × Option String} (hnd : l.Nodup) (hc : c ∈ l) :
    keyCount c l = 1 := by
  induction l with
  | nil => cases hc
  | cons a l ih =>
    by_cases hac : a = c
    · subst hac
      have hnot : a ∉ l := (List.nodup_cons.mp hnd).1
      have hnil : l.filter (fun x => decide (x = a)) = [] :=
        List.filter_eq_nil_iff.mpr (fun x hx => by
          simp only [decide_eq_true_eq]
          rintro rfl
          exact hnot hx)
      simp [keyCount, List.filter_cons, hnil]
    · have hmem : c ∈ l := by
        rcases List.mem_cons.mp hc with h | h
        · exact absurd h.symm hac
        · exact h
      have hrec := ih (List.nodup_cons.mp hnd).2 hmem
      simp only [keyCount, List.filter_cons] at hrec ⊢
      simp [hac, hrec]

/-- The duplicated mapping item of the C1 counterexample. -/
def dupItemC1 : PairItem :=
  ⟨some "a", some "5", some "2025-12", none, some true⟩

/-- C1 counterexample: with a mapping whose entry lists the same
(propertyCode, sourceMonth) combination twice, one run of the apply step
(N = 1) leaves the gap record's rollover field containing that combination
twice — not exactly once as the claim states for every mapping. -/
theorem c1_counterexample :
    ((applyIter "2026-01" [("k", [dupItemC1, dupItemC1])] 0 1
        ⟨[⟨"2026-01", none, some "k", [], [], .missing, none⟩], [], []⟩).leader_board.map
      (fun r => keyCount (rKeyOf dupItemC1) ((storedItems r.rollover_commission_list).map rKeyOf)))
      = [2] := by decide

/-- C1 (amended): provided every per-agent mapping entry has pairwise
distinct (propertyCode, sourceMonth) keys, running the apply step N ≥ 1
times transforms the collection record-wise, and every target-month record
that starts with a missing/empty rollover field ends with its rollover
field equal to its agent's mapping entry, containing each distinct
combination exactly once (records with no mapping entry stay unchanged);
the outcome is independent of N. -/
theorem c1_at_most_once_merge (db : DB) (tm : String) (m : RolloverMap) (now N : Nat)
    (hN : 1 ≤ N)
    (hkeys : ∀ k its, mapGet m k = some its → (its.map rKeyOf).Nodup)
    (r : LbRecord) (hm : r.month = tm)
    (hmiss : isMissingR r.rollover_commission_list = true) :
    (applyIter tm m now N db).leader_board
        = db.leader_board.map ((applyRecStep tm m now)^[N]) ∧
    (match mapGet m (resolveKey r.userIdMonthId r.agentName) with
     | some its => its ≠ [] →
        storedItems (((applyRecStep tm m now)^[N] r).rollover_commission_list) = its ∧
        ∀ c ∈ its.map rKeyOf, keyCount c (its.map rKeyOf) = 1
     | none => (applyRecStep tm m now)^[N] r = r) := by
  refine ⟨applyIter_leader_board tm m now N db, ?_⟩
  rw [applyRecStep_iterate hN]
  cases hget : mapGet m (resolveKey r.userIdMonthId r.agentName) with
  | none => simp [applyRecStep, applyTargets, hm, hmiss, hget]
  | some its =>
    intro hne
    have hstep : applyTargets tm m r = some its := by
      unfold applyTargets
      rw [if_pos (by simp [hm, hmiss]), hget]
      dsimp only
      rw [if_pos hne]
    constructor
    · simp [applyRecStep, hstep, storedItems]
    · intro c hc
      exact keyCount_eq_one (hkeys _ _ hget) hc

/-- The gap record of the C1 witness. -/
def recC1W : LbRecord :=
  ⟨"2026-01", none, some "k", [], [], .missing, none⟩

/-- The singleton mapping of the C1 witness. -/
def mapC1W : RolloverMap :=
  [("k", [dupItemC1])]

/-- The Calculator never touches the status ledger. -/
theorem ensure_rollover_status (db : DB) (tm pm : String) (now : Nat) :
    (ensureRolloverItemsCalculated db tm pm now).2.rollover_status = db.rollover_status := by
  simp only [ensureRolloverItemsCalculated]
  split
  · rfl
  · split
    · rfl
    · rfl

/-- The Calculator never touches the agent-month records. -/
theorem ensure_leader_board (db : DB) (tm pm : String) (now : Nat) :
    (ensureRolloverItemsCalculated db tm pm now).2.leader_board = db.leader_board := by
  simp only [ensureRolloverItemsCalculated]
  split
  · rfl
  · split
    · rfl
    · rfl

/-- With no cached mapping and no previous-month records, the Calculator
returns the empty mapping and writes nothing. -/
theorem ensure_of_empty (db : DB) (tm pm : String) (now : Nat)
    (hri : db.rollover_items.filter (fun r => r.targetMonth = tm) = [])
    (hprev : db.leader_board.filter (fun r => r.month = pm) = []) :
    ensureRolloverItemsCalculated db tm pm now = ([], db) := by
  unfold ensureRolloverItemsCalculated
  simp [hri, hprev]

/-- C7 counterexample: the malformed month `"garbage"` does not yield null
from `getPreviousMonth` — it yields the string `"NaN-NaN"` (the `Number`
coercion produces NaN and the template literal renders it), and on the
empty store the two-phase entry point consequently proceeds and returns
`applied: true` with `itemsMerged: 0` (a benign no-op), not a structured
failure. -/
theorem c7_counterexample :
    getPreviousMonth "garbage" = some "NaN-NaN" ∧
    (checkAndApplyRollover ⟨[], [], []⟩ "garbage" 0).2.applied = true ∧
    (checkAndApplyRollover ⟨[], [], []⟩ "garbage" 0).2.itemsMerged = 0 := by
  refine ⟨?_, ?_, ?_⟩
  · decide
  · decide
  · decide

/-- C7 (amended): `getPreviousMonth` returns null only for the empty
string; every non-empty input — malformed ones included — yields some
string (nothing in its body throws), and the two-phase entry point then
always reports `applied: true` (a benign no-op when no data exists for the
NaN-month), never a failure result. -/
theorem c7_fail_soft (s : String) (db : DB) (now : Nat) (h : s ≠ "") :
    (getPreviousMonth s).isSome = true ∧
    (checkAndApplyRollover db s now).2.applied = true := by
  have hpm : ∃ pm, getPreviousMonth s = some pm := by
    simp only [getPreviousMonth, if_neg h]
    split
    · exact ⟨_, rfl⟩
    · exact ⟨_, rfl⟩
  obtain ⟨pm, hpm⟩ := hpm
  constructor
  · rw [hpm]; rfl
  · simp only [checkAndApplyRollover, hpm]
    split
    · rfl
    · rfl

/-- Witness for C7 (amended), at the malformed month `"garbage"`. -/
theorem c7_witness :
    "garbage" ≠ "" ∧
    ((getPreviousMonth "garbage").isSome = true ∧
     (checkAndApplyRollover ⟨[], [], []⟩ "garbage" 0).2.applied = true) :=
  ⟨by decide, c7_fail_soft "garbage" ⟨[], [], []⟩ 0 (by decide)⟩

/-- C8 counterexample: running the two-phase `checkAndApplyRollover` for
`2026-02` on a store with no previous-month records leaves the status
ledger empty — no record with reason `no_previous_data` is upserted,
contrary to the claim (only the single-phase variant writes these
reasons). -/
theorem c8_counterexample :
    (checkAndApplyRollover ⟨[], [], []⟩ "2026-02" 0).1.rollover_status = [] := by decide

/-- C8 (amended): with no cached mapping for the target month, the
single-phase variant upserts the status record with reason
`no_previous_data` (previous month empty) or `no_incomplete_items`
(records but no contribution), merging zero items; the two-phase variant
returns the empty mapping and merges zero items in these cases but writes
no status record at all — its only status write happens when the apply
phase runs. -/
theorem c8_empty_outcomes (db : DB) (tm pm : String) (now : Nat)
    (hpm : getPreviousMonth tm = some pm)
    (hri : db.rollover_items.filter (fun r => r.targetMonth = tm) = []) :
    (db.leader_board.filter (fun r => r.month = pm) = [] →
       (checkAndApplyRolloverV1 db tm now).1.rollover_status
           = upsertStatus db.rollover_status ⟨tm, true, now, 0, "no_previous_data", none⟩ ∧
       (checkAndApplyRolloverV1 db tm now).2.itemsMerged = 0 ∧
       (ensureRolloverItemsCalculated db tm pm now).1 = [] ∧
       (checkAndApplyRollover db tm now).1.rollover_status = db.rollover_status ∧
       (checkAndApplyRollover db tm now).2.itemsMerged = 0) ∧
    (db.leader_board.filter (fun r => r.month = pm) ≠ [] →
       calcMapV1 pm (db.leader_board.filter (fun r => r.month = pm)) = [] →
       (checkAndApplyRolloverV1 db tm now).1.rollover_status
           = upsertStatus db.rollover_status ⟨tm, true, now, 0, "no_incomplete_items", none⟩ ∧
       (checkAndApplyRolloverV1 db tm now).2.itemsMerged = 0) ∧
    ((ensureRolloverItemsCalculated db tm pm now).1 = [] →
       (checkAndApplyRollover db tm now).1.rollover_status = db.rollover_status ∧
       (checkAndApplyRollover db tm now).2.itemsMerged = 0) := by
  have hv2 : (ensureRolloverItemsCalculated db tm pm now).1 = [] →
      (checkAndApplyRollover db tm now).1.rollover_status = db.rollover_status ∧
      (checkAndApplyRollover db tm now).2.itemsMerged = 0 := by
    intro hm
    simp only [checkAndApplyRollover, hpm]
    rw [if_pos hm]
    exact ⟨ensure_rollover_status db tm pm now, rfl⟩
  refine ⟨?_, ?_, hv2⟩
  · intro hprev
    have hens : (ensureRolloverItemsCalculated db tm pm now).1 = [] := by
      rw [ensure_of_empty db tm pm now hri hprev]
    refine ⟨?_, ?_, hens, hv2 hens⟩
    · simp only [checkAndApplyRolloverV1, hpm]
      rw [if_pos hprev]
      rfl
    · simp only [checkAndApplyRolloverV1, hpm]
      rw [if_pos hprev]
  · intro hprev hmap
    constructor
    · simp only [checkAndApplyRolloverV1, hpm]
      rw [if_neg hprev, if_pos hmap]
      rfl
    · simp only [checkAndApplyRolloverV1, hpm]
      rw [if_neg hprev, if_pos hmap]

/-- Witness for C8 (amended), at an empty store and month `2026-02`. -/
theorem c8_witness :
    getPreviousMonth "2026-02" = some "2026-01" ∧
    (DB.rollover_items ⟨[], [], []⟩).filter (fun r => r.targetMonth = "2026-02") = [] ∧
    (((DB.leader_board ⟨[], [], []⟩).filter (fun r => r.month = "2026-01") = [] →
        (checkAndApplyRolloverV1 ⟨[], [], []⟩ "2026-02" 0).1.rollover_status
            = upsertStatus (DB.rollover_status ⟨[], [], []⟩)
                ⟨"2026-02", true, 0, 0, "no_previous_data", none⟩ ∧
        (checkAndApplyRolloverV1 ⟨[], [], []⟩ "2026-02" 0).2.itemsMerged = 0 ∧
        (ensureRolloverItemsCalculated ⟨[], [], []⟩ "2026-02" "2026-01" 0).1 = [] ∧
        (checkAndApplyRollover ⟨[], [], []⟩ "2026-02" 0).1.rollover_status
            = DB.rollover_status ⟨[], [], []⟩ ∧
        (checkAndApplyRollover ⟨[], [], []⟩ "2026-02" 0).2.itemsMerged = 0) ∧
     ((DB.leader_board ⟨[], [], []⟩).filter (fun r => r.month = "2026-01") ≠ [] →
        calcMapV1 "2026-01" ((DB.leader_board ⟨[], [], []⟩).filter (fun r => r.month = "2026-01")) = [] →
        (checkAndApplyRolloverV1 ⟨[], [], []⟩ "2026-02" 0).1.rollover_status
            = upsertStatus (DB.rollover_status ⟨[], [], []⟩)
                ⟨"2026-02", true, 0, 0, "no_incomplete_items", none⟩ ∧
        (checkAndApplyRolloverV1 ⟨[], [], []⟩ "2026-02" 0).2.itemsMerged = 0) ∧
     ((ensureRolloverItemsCalculated ⟨[], [], []⟩ "2026-02" "2026-01" 0).1 = [] →
        (checkAndApplyRollover ⟨[], [], []⟩ "2026-02" 0).1.rollover_status
            = DB.rollover_status ⟨[], [], []⟩ ∧
        (checkAndApplyRollover ⟨[], [], []⟩ "2026-02" 0).2.itemsMerged = 0)) :=
  ⟨by decide, by decide, c8_empty_outcomes ⟨[], [], []⟩ "2026-02" "2026-01" 0 (by decide) (by decide)⟩

/-- C9: earned-exclusion ignores the paid amount. Whenever some earned
detail carries a present (non-null) commission — zero included — and a
normalised property code matching the pair's, the pair is excluded from
the composed pipeline (caller's earned-details filter followed by the
Incomplete-Item Selector), for every pair list and earned list. -/
theorem c9_earned_exclusion (pairs : List (Option PairItem))
    (raw : List (Option EarnedDetail)) (pair : PairItem) (d : EarnedDetail)
    (s t : String)
    (hd : some d ∈ raw) (hdp : d.propertyCode = some s)
    (hdc : d.commission.isSome = true)
    (hpp : pair.propertyCode = some t)
    (heq : normCode s = normCode t) :
    some pair ∉ getIncompleteCommissions pairs (earnedFilter raw) := by
  intro hmem
  have hpred := (List.mem_filter.mp hmem).2
  unfold incompletePred at hpred
  dsimp only at hpred
  cases hcv : pair.commissionValue with
  | none => rw [hcv] at hpred; simp at hpred
  | some cv =>
    rw [hcv] at hpred
    dsimp only at hpred
    rw [hpp] at hpred
    split at hpred
    · simp at hpred
    · split at hpred
      · simp at hpred
      · by_cases hz : normCode t = ""
        · simp [hz] at hpred
        · have hsne : s ≠ "" := by
            intro hs
            apply hz
            rw [← heq, hs]
            rfl
          have hdm : d ∈ earnedFilter raw := by
            unfold earnedFilter
            refine List.mem_filterMap.mpr ⟨some d, hd, ?_⟩
            simp [hdp, hsne, hdc]
          have hcode : normCode t ∈ earnedCodesOf (earnedFilter raw) := by
            unfold earnedCodesOf
            refine List.mem_filter.mpr ⟨?_, by simpa using hz⟩
            exact List.mem_filterMap.mpr ⟨d, hdm, by rw [hdp]; simp [heq]⟩
          have hcontains : (earnedCodesOf (earnedFilter raw)).contains (normCode t) = true :=
            List.elem_iff.mpr hcode
          simp at hpred
          exact hpred.2 hcode

/-! ## The JSON round trip (towards C5) -/

/-- A decimal number in the canonical form JavaScript prints: an integer
carries exponent zero, a fraction carries a mantissa not divisible by ten
(no trailing fraction zeros). JavaScript number-to-string conversion is
injective, so every number a valid pair holds prints canonically. -/
def DecCanon (d : Dec10) : Prop :=
  d.exp10 = 0 ∨ (d.exp10 < 0 ∧ d.mant % 10 ≠ 0)

/-- Values in the image of the repository's serialisations: null,
booleans, canonical numbers, strings, arrays and objects (undefined never
occurs in a stored commission-pair list). -/
inductive Ser : JsValue → Prop where
  | nullS : Ser .nullV
  | boolS (b : Bool) : Ser (.boolV b)
  | numS (d : Dec10) : DecCanon d → Ser (.numV d)
  | strS (s : String) : Ser (.strV s)
  | arrS (es : List JsValue) : (∀ e ∈ es, Ser e) → Ser (.arrV es)
  | objS (fs : List (String × JsValue)) : (∀ f ∈ fs, Ser f.2) → Ser (.objV fs)

mutual

/-- Structural size of a value (for the strong induction). -/
def jsSize : JsValue → Nat
  | .arrV es => 1 + jsSizeL es
  | .objV fs => 1 + jsSizeF fs
  | _ => 1

/-- Structural size of an element list. -/
def jsSizeL : List JsValue → Nat
  | [] => 0
  | v :: vs => 1 + jsSize v + jsSizeL vs

/-- Structural size of a field list. -/
def jsSizeF : List (String × JsValue) → Nat
  | [] => 0
  | f :: fs => 1 + jsSize f.2 + jsSizeF fs

end

mutual

/-- Fuel sufficient for `parseVal` on the serialisation of a value. -/
def nVal : JsValue → Nat
  | .arrV es => 2 + nItems es
  | .objV fs => 2 + nFields fs
  | _ => 1

/-- Fuel sufficient for `parseArrItems` on serialised elements. -/
def nItems : List JsValue → Nat
  | [] => 0
  | v :: vs => 1 + max (nVal v) (nItems vs)

/-- Fuel sufficient for `parseObjItems` on serialised fields. -/
def nFields : List (String × JsValue) → Nat
  | [] => 0
  | f :: fs => 1 + max (nVal f.2) (nFields fs)

end

/-- Skipping whitespace at a non-whitespace head is the identity. -/
theorem skipWs_cons {c : Char} (cs : List Char) (h : isJsonWs c = false) :
    skipWs (c :: cs) = c :: cs := by
  unfold skipWs
  rw [List.dropWhile_cons, h]
  simp

/-- A hexadecimal digit character decodes to its value. -/
theorem radixDigit_hexDigitChar {d : Nat} (h : d < 16) :
    radixDigit 16 (hexDigitChar d) = some d := by
  interval_cases d <;> rfl

/-- Unfolding equation for `parseStrBody` at an unescaped character. -/
theorem parseStrBody_plain (c : Char) (X : List Char)
    (h1 : c ≠ '"') (h2 : c ≠ '\\') (h3 : 32 ≤ c.toNat) :
    parseStrBody (c :: X)
      = match parseStrBody X with
        | some (s, r) => some (c :: s, r)
        | none => none := by
  rw [parseStrBody.eq_def]
  dsimp only
  rw [if_neg h1, if_neg h2, if_neg (by omega)]

/-- Unfolding equation for `parseStrBody` at a closing quote. -/
theorem parseStrBody_quote (X : List Char) : parseStrBody ('"' :: X) = some ([], X) := by
  rw [parseStrBody.eq_def]
  dsimp only
  rw [if_pos rfl]

/-- Unfolding equation for `parseStrBody` at a `\uXXXX` escape. -/
theorem parseStrBody_u (h1 h2 h3 h4 : Char) (X : List Char) :
    parseStrBody ('\\' :: 'u' :: h1 :: h2 :: h3 :: h4 :: X)
      = match radixDigit 16 h1, radixDigit 16 h2, radixDigit 16 h3, radixDigit 16 h4 with
        | some a, some b, some cc, some d =>
          (match parseStrBody X with
           | some (s, r) => some (Char.ofNat (((a * 16 + b) * 16 + cc) * 16 + d) :: s, r)
           | none => none)
        | _, _, _, _ => none := by
  rw [parseStrBody.eq_def]
  dsimp only
  rw [if_neg (by decide), if_pos rfl]
  split
  · rename_i a1 a2 a3 a4 rest' heq
    obtain ⟨-, heq⟩ := List.cons.inj heq
    obtain ⟨e1, heq⟩ := List.cons.inj heq
    obtain ⟨e2, heq⟩ := List.cons.inj heq
    obtain ⟨e3, heq⟩ := List.cons.inj heq
    obtain ⟨e4, e5⟩ := List.cons.inj heq
    subst e1; subst e2; subst e3; subst e4; subst e5
    rfl
  · rename_i hne heq
    obtain ⟨he, hr⟩ := List.cons.inj heq
    subst he; subst hr
    exact (hne h1 h2 h3 h4 X rfl rfl).elim
  · rename_i heq
    exact absurd heq (by simp)

/-- Unfolding equation for `parseStrBody` at a single-character escape. -/
theorem parseStrBody_esc (e : Char) (X : List Char) (hu : e ≠ 'u') :
    parseStrBody ('\\' :: e :: X)
      = match
          (if e = '"' then some '"'
           else if e = '\\' then some '\\'
           else if e = '/' then some '/'
           else if e = 'b' then some '\x08'
           else if e = 'f' then some '\x0c'
           else if e = 'n' then some '\n'
           else if e = 'r' then some '\x0d'
           else if e = 't' then some '\t'
           else none : Option Char) with
        | some c' =>
          (match parseStrBody X with
           | some (s, r) => some (c' :: s, r)
           | none => none)
        | none => none := by
  rw [parseStrBody.eq_def]
  dsimp only
  rw [if_neg (by decide), if_pos rfl]
  split
  · rename_i a1 a2 a3 a4 rest' heq
    obtain ⟨he, -⟩ := List.cons.inj heq
    exact absurd he hu
  · rename_i e' rest' heq
    obtain ⟨he, hr⟩ := List.cons.inj heq
    subst he; subst hr; rfl
  · rename_i heq
    exact absurd heq (by simp)

/-- The JSON string-body parser inverts the escaper. -/
theorem parseStrBody_escape (cs : List Char) (rest : List Char) :
    parseStrBody (escapeChars cs ++ '"' :: rest) = some (cs, rest) := by
  induction cs with
  | nil =>
    show parseStrBody ('"' :: rest) = some ([], rest)
    rw [parseStrBody_quote]
  | cons c cs ih =>
    have hesc : escapeChars (c :: cs) = escapeChar c ++ escapeChars cs := rfl
    rw [hesc, List.append_assoc]
    by_cases h1 : c = '"'
    · subst h1
      have : escapeChar '"' = ['\\', '"'] := rfl
      rw [this]
      show parseStrBody ('\\' :: '"' :: (escapeChars cs ++ '"' :: rest))
          = some ('"' :: cs, rest)
      rw [parseStrBody_esc '"' _ (by decide)]
      show (match parseStrBody (escapeChars cs ++ '"' :: rest) with
            | some (s, r) => some ('"' :: s, r)
            | none => none) = some ('"' :: cs, rest)
      rw [ih]
    · by_cases h2 : c = '\\'
      · subst h2
        have : escapeChar '\\' = ['\\', '\\'] := rfl
        rw [this]
        show parseStrBody ('\\' :: '\\' :: (escapeChars cs ++ '"' :: rest))
            = some ('\\' :: cs, rest)
        rw [parseStrBody_esc '\\' _ (by decide)]
        show (match parseStrBody (escapeChars cs ++ '"' :: rest) with
              | some (s, r) => some ('\\' :: s, r)
              | none => none) = some ('\\' :: cs, rest)
        rw [ih]
      · by_cases h3 : c = '\x08'
        · subst h3
          have : escapeChar '\x08' = ['\\', 'b'] := rfl
          rw [this]
          show parseStrBody ('\\' :: 'b' :: (escapeChars cs ++ '"' :: rest))
              = some ('\x08' :: cs, rest)
          rw [parseStrBody_esc 'b' _ (by decide)]
          show (match parseStrBody (escapeChars cs ++ '"' :: rest) with
                | some (s, r) => some ('\x08' :: s, r)
                | none => none) = some ('\x08' :: cs, rest)
          rw [ih]
        · by_cases h4 : c = '\x0c'
          · subst h4
            have : escapeChar '\x0c' = ['\\', 'f'] := rfl
            rw [this]
            show parseStrBody ('\\' :: 'f' :: (escapeChars cs ++ '"' :: rest))
                = some ('\x0c' :: cs, rest)
            rw [parseStrBody_esc 'f' _ (by decide)]
            show (match parseStrBody (escapeChars cs ++ '"' :: rest) with
                  | some (s, r) => some ('\x0c' :: s, r)
                  | none => none) = some ('\x0c' :: cs, rest)
            rw [ih]
          · by_cases h5 : c = '\n'
            · subst h5
              have : escapeChar '\n' = ['\\', 'n'] := rfl
              rw [this]
              show parseStrBody ('\\' :: 'n' :: (escapeChars cs ++ '"' :: rest))
                  = some ('\n' :: cs, rest)
              rw [parseStrBody_esc 'n' _ (by decide)]
              show (match parseStrBody (escapeChars cs ++ '"' :: rest) with
                    | some (s, r) => some ('\n' :: s, r)
                    | none => none) = some ('\n' :: cs, rest)
              rw [ih]
            · by_cases h6 : c = '\x0d'
              · subst h6
                have : escapeChar '\x0d' = ['\\', 'r'] := rfl
                rw [this]
                show parseStrBody ('\\' :: 'r' :: (escapeChars cs ++ '"' :: rest))
                    = some ('\x0d' :: cs, rest)
                rw [parseStrBody_esc 'r' _ (by decide)]
                show (match parseStrBody (escapeChars cs ++ '"' :: rest) with
                      | some (s, r) => some ('\x0d' :: s, r)
                      | none => none) = some ('\x0d' :: cs, rest)
                rw [ih]
              · by_cases h7 : c = '\t'
                · subst h7
                  have : escapeChar '\t' = ['\\', 't'] := rfl
                  rw [this]
                  show parseStrBody ('\\' :: 't' :: (escapeChars cs ++ '"' :: rest))
                      = some ('\t' :: cs, rest)
                  rw [parseStrBody_esc 't' _ (by decide)]
                  show (match parseStrBody (escapeChars cs ++ '"' :: rest) with
                        | some (s, r) => some ('\t' :: s, r)
                        | none => none) = some ('\t' :: cs, rest)
                  rw [ih]
                · by_cases h8 : c.toNat < 32
                  · have hesc8 : escapeChar c
                        = ['\\', 'u', '0', '0', hexDigitChar (c.toNat / 16),
                           hexDigitChar (c.toNat % 16)] := by
                      unfold escapeChar
                      rw [if_neg h1, if_neg h2, if_neg h3, if_neg h4, if_neg h5,
                        if_neg h6, if_neg h7, if_pos h8]
                    rw [hesc8]
                    show parseStrBody ('\\' :: 'u' :: '0' :: '0'
                          :: hexDigitChar (c.toNat / 16) :: hexDigitChar (c.toNat % 16)
                          :: (escapeChars cs ++ '"' :: rest))
                        = some (c :: cs, rest)
                    rw [parseStrBody_u]
                    rw [radixDigit_hexDigitChar (by omega),
                      radixDigit_hexDigitChar (by omega), ih]
                    have hz : radixDigit 16 '0' = some 0 := rfl
                    rw [hz]
                    dsimp only
                    have harith : ((0 * 16 + 0) * 16 + c.toNat / 16) * 16 + c.toNat % 16
                        = c.toNat := by omega
                    rw [harith, Char.ofNat_toNat]
                  · have hesc9 : escapeChar c = [c] := by
                      unfold escapeChar
                      rw [if_neg h1, if_neg h2, if_neg h3, if_neg h4, if_neg h5,
                        if_neg h6, if_neg h7, if_neg h8]
                    rw [hesc9]
                    show parseStrBody (c :: (escapeChars cs ++ '"' :: rest))
                        = some (c :: cs, rest)
                    rw [parseStrBody_plain c _ h1 h2 (by omega), ih]

/-! ## Lemmas about the Calculator's persistence (towards C2) -/

/-- The cache record the Calculator persists for one mapping entry. -/
def mkRi (tm pm : String) (now : Nat) (e : String × List PairItem) : RiRecord :=
  ⟨tm, e.1, pm, e.2, e.2.length, now⟩

/-- Number of persisted cache records for one (target month, agent key). -/
def riCount (db : DB) (tm k : String) : Nat :=
  ((db.rollover_items.filter (fun r => r.targetMonth = tm)).filter
    (fun r => r.agentKey = k)).length

/-- A contributed entry is always non-empty. -/
theorem calcEntry_ne_nil {pm : String} {a : LbRecord} {k : String}
    {items : List PairItem} (h : calcEntry pm a = some (k, items)) : items ≠ [] := by
  simp only [calcEntry] at h
  split at h
  · cases h
  · split at h
    · cases h
    · rename_i hinc
      rw [Option.some.injEq, Prod.mk.injEq] at h
      rw [← h.2]
      simp [hinc]

/-- Setting a fresh key appends the pair. -/
theorem mapSet_append {m : RolloverMap} {k : String} (v : List PairItem)
    (h : ∀ e ∈ m, e.1 ≠ k) : mapSet m k v = m ++ [(k, v)] := by
  induction m with
  | nil => rfl
  | cons e m ih =>
    obtain ⟨k', v'⟩ := e
    have hk : k' ≠ k := h (k', v') (by simp)
    unfold mapSet
    rw [if_neg hk, ih (fun e he => h e (by simp [he]))]
    rfl

/-- Membership after a map set. -/
theorem mapSet_mem {m : RolloverMap} {k : String} {v : List PairItem}
    {e : String × List PairItem} (h : e ∈ mapSet m k v) : e = (k, v) ∨ e ∈ m := by
  induction m with
  | nil => simpa [mapSet] using h
  | cons e' m ih =>
    obtain ⟨k', v'⟩ := e'
    unfold mapSet at h
    split at h
    · rcases List.mem_cons.mp h with rfl | hm
      · exact Or.inl rfl
      · exact Or.inr (by simp [hm])
    · rcases List.mem_cons.mp h with rfl | hm
      · exact Or.inr (by simp)
      · rcases ih hm with h1 | h2
        · exact Or.inl h1
        · exact Or.inr (by simp [h2])

/-- Keys after a map set. -/
theorem mapSet_keys_mem {m : RolloverMap} {k x : String} {v : List PairItem}
    (h : x ∈ (mapSet m k v).map Prod.fst) : x ∈ m.map Prod.fst ∨ x = k := by
  rcases List.mem_map.mp h with ⟨e, he, hfst⟩
  rcases mapSet_mem he with rfl | hm
  · exact Or.inr hfst.symm
  · exact Or.inl (List.mem_map.mpr ⟨e, hm, hfst⟩)

/-- A map set preserves duplicate-freeness of the keys. -/
theorem mapSet_nodup {m : RolloverMap} {k : String} {v : List PairItem}
    (h : (m.map Prod.fst).Nodup) : ((mapSet m k v).map Prod.fst).Nodup := by
  induction m with
  | nil => simp [mapSet]
  | cons e m ih =>
    obtain ⟨k', v'⟩ := e
    rw [List.map_cons, List.nodup_cons] at h
    unfold mapSet
    split
    · rename_i hk
      subst hk
      simpa using h
    · rename_i hk
      rw [List.map_cons, List.nodup_cons]
      refine ⟨?_, ih h.2⟩
      intro hmem
      rcases mapSet_keys_mem hmem with hm | rfl
      · exact h.1 hm
      · exact hk rfl

/-- Filtering cache upserts for the upserted month commutes with the
upsert. -/
theorem upsertRi_filter {tm : String} (l : List RiRecord) (r : RiRecord)
    (h : r.targetMonth = tm) :
    (upsertRi l r).filter (fun x => x.targetMonth = tm)
      = upsertRi (l.filter (fun x => x.targetMonth = tm)) r := by
  induction l with
  | nil => simp [upsertRi, h]
  | cons s ss ih =>
    show (if s.targetMonth = r.targetMonth ∧ s.agentKey = r.agentKey
          then r :: ss else s :: upsertRi ss r).filter (fun x => x.targetMonth = tm)
        = upsertRi ((s :: ss).filter (fun x => x.targetMonth = tm)) r
    split
    · rename_i hmatch
      have hs : s.targetMonth = tm := by rw [hmatch.1, h]
      rw [List.filter_cons, if_pos (by simpa using h), List.filter_cons,
        if_pos (by simpa using hs)]
      show r :: ss.filter (fun x => x.targetMonth = tm)
          = if s.targetMonth = r.targetMonth ∧ s.agentKey = r.agentKey
            then r :: ss.filter (fun x => x.targetMonth = tm)
            else s :: upsertRi (ss.filter (fun x => x.targetMonth = tm)) r
      rw [if_pos hmatch]
    · rename_i hmatch
      by_cases hs : s.targetMonth = tm
      · rw [List.filter_cons, if_pos (by simpa using hs), List.filter_cons,
          if_pos (by simpa using hs)]
        show s :: (upsertRi ss r).filter (fun x => x.targetMonth = tm)
            = if s.targetMonth = r.targetMonth ∧ s.agentKey = r.agentKey
              then r :: ss.filter (fun x => x.targetMonth = tm)
              else s :: upsertRi (ss.filter (fun x => x.targetMonth = tm)) r
        rw [if_neg hmatch, ih]
      · rw [List.filter_cons, if_neg (by simpa using hs), List.filter_cons,
          if_neg (by simpa using hs), ih]

/-- Unfolding equation of `upsertRi` on a cons cell. -/
theorem upsertRi_cons (s : RiRecord) (ss : List RiRecord) (r : RiRecord) :
    upsertRi (s :: ss) r
      = if s.targetMonth = r.targetMonth ∧ s.agentKey = r.agentKey
        then r :: ss else s :: upsertRi ss r := rfl

/-- Unfolding equation of `mapSet` on a cons cell. -/
theorem mapSet_cons (k' : String) (v' : List PairItem) (m : RolloverMap)
    (k : String) (v : List PairItem) :
    mapSet ((k', v') :: m) k v
      = if k' = k then (k, v) :: m else (k', v') :: mapSet m k v := rfl

/-- Upsert on the image of the mapping is the image of the map set. -/
theorem upsertRi_map_mkRi (tm pm : String) (now : Nat) (k : String)
    (its : List PairItem) :
    ∀ m : RolloverMap,
      upsertRi (m.map (mkRi tm pm now)) (mkRi tm pm now (k, its))
        = (mapSet m k its).map (mkRi tm pm now) := by
  intro m
  induction m with
  | nil => rfl
  | cons e m ih =>
    obtain ⟨k', v'⟩ := e
    rw [List.map_cons, upsertRi_cons, mapSet_cons]
    by_cases hk : k' = k
    · rw [if_pos (by simp [mkRi, hk]), if_pos hk]
      rfl
    · rw [if_neg (by simp [mkRi, hk]), if_neg hk, List.map_cons, ih]

/-- The Calculator's fold maintains: the cache records for the target
month are exactly the image of the mapping, the mapping keys are distinct,
and every mapping entry is non-empty. -/
theorem ensureFold_inv (tm pm : String) (now : Nat) :
    ∀ (prev : List LbRecord) (macc : RolloverMap) (lacc : List RiRecord),
      lacc.filter (fun x => x.targetMonth = tm) = macc.map (mkRi tm pm now) →
      (macc.map Prod.fst).Nodup →
      (∀ e ∈ macc, e.2 ≠ []) →
      ((prev.foldl (ensureStep tm pm now) (macc, lacc)).2.filter
          (fun x => x.targetMonth = tm)
        = (prev.foldl (ensureStep tm pm now) (macc, lacc)).1.map (mkRi tm pm now)) ∧
      ((prev.foldl (ensureStep tm pm now) (macc, lacc)).1.map Prod.fst).Nodup ∧
      (∀ e ∈ (prev.foldl (ensureStep tm pm now) (macc, lacc)).1, e.2 ≠ []) := by
  intro prev
  induction prev with
  | nil => intro macc lacc h1 h2 h3; exact ⟨h1, h2, h3⟩
  | cons a prev ih =>
    intro macc lacc h1 h2 h3
    rw [List.foldl_cons]
    cases hce : calcEntry pm a with
    | none =>
      have hstep : ensureStep tm pm now (macc, lacc) a = (macc, lacc) := by
        simp [ensureStep, hce]
      rw [hstep]
      exact ih macc lacc h1 h2 h3
    | some kv =>
      obtain ⟨k, items⟩ := kv
      have hstep : ensureStep tm pm now (macc, lacc) a
          = (mapSet macc k items, upsertRi lacc (mkRi tm pm now (k, items))) := by
        simp [ensureStep, hce, mkRi]
      rw [hstep]
      apply ih
      · rw [upsertRi_filter _ _ (by rfl), h1, upsertRi_map_mkRi]
      · exact mapSet_nodup h2
      · intro e he
        rcases mapSet_mem he with rfl | hm
        · exact calcEntry_ne_nil hce
        · exact h3 e hm

/-- The mapping the Calculator's fold computes does not depend on the
cache accumulator or the timestamp. -/
theorem ensureFold_fst (tm pm : String) (now now' : Nat) :
    ∀ (prev : List LbRecord) (macc : RolloverMap) (lacc lacc' : List RiRecord),
      (prev.foldl (ensureStep tm pm now) (macc, lacc)).1
        = (prev.foldl (ensureStep tm pm now') (macc, lacc')).1 := by
  intro prev
  induction prev with
  | nil => intro macc lacc lacc'; rfl
  | cons a prev ih =>
    intro macc lacc lacc'
    rw [List.foldl_cons, List.foldl_cons]
    cases hce : calcEntry pm a with
    | none => simp only [ensureStep, hce]; exact ih macc _ _
    | some kv => simp only [ensureStep, hce]; exact ih _ _ _

/-- Reloading the image of a duplicate-free, non-empty mapping rebuilds
that mapping. -/
theorem loadMap_map_mkRi (tm pm : String) (now : Nat) :
    ∀ (m : RolloverMap) (acc : RolloverMap),
      (∀ e ∈ m, e.2 ≠ []) → (m.map Prod.fst).Nodup →
      (∀ e ∈ m, ∀ e' ∈ acc, e'.1 ≠ e.1) →
      (m.map (mkRi tm pm now)).foldl
          (fun acc' r =>
            if r.rolloverItems ≠ [] then mapSet acc' r.agentKey r.rolloverItems else acc') acc
        = acc ++ m := by
  intro m
  induction m with
  | nil => intro acc _ _ _; simp
  | cons e m ih =>
    intro acc h1 h2 h3
    obtain ⟨k, v⟩ := e
    have hv : v ≠ [] := h1 (k, v) (by simp)
    rw [List.map_cons, List.foldl_cons]
    have hfresh : ∀ e' ∈ acc, e'.1 ≠ k := fun e' he' => h3 (k, v) (by simp) e' he'
    have hstep : (if (mkRi tm pm now (k, v)).rolloverItems ≠ []
          then mapSet acc (mkRi tm pm now (k, v)).agentKey (mkRi tm pm now (k, v)).rolloverItems
          else acc) = acc ++ [(k, v)] := by
      rw [if_pos (by simpa [mkRi] using hv)]
      exact mapSet_append v hfresh
    rw [hstep]
    rw [List.map_cons, List.nodup_cons] at h2
    have hrec := ih (acc ++ [(k, v)]) (fun e he => h1 e (by simp [he])) h2.2 ?hfresh2
    case hfresh2 =>
      intro e he e' he'
      rcases List.mem_append.mp he' with hacc | hkv
      · exact h3 e (by simp [he]) e' hacc
      · have : e' = (k, v) := by simpa using hkv
        subst this
        intro hEq
        exact h2.1 (List.mem_map.mpr ⟨e, he, hEq.symm⟩)
    rw [hrec, List.append_assoc]
    rfl

/-- Filtering the image of the mapping by agent key is the image of the
key filter. -/
theorem mkRi_filter_key (tm pm : String) (now : Nat) (k : String) :
    ∀ m : RolloverMap,
      (m.map (mkRi tm pm now)).filter (fun r => r.agentKey = k)
        = (m.filter (fun e => e.1 = k)).map (mkRi tm pm now) := by
  intro m
  induction m with
  | nil => rfl
  | cons e m ih =>
    obtain ⟨k', v'⟩ := e
    rw [List.map_cons, List.filter_cons, List.filter_cons]
    by_cases hk : k' = k
    · rw [if_pos (by simpa [mkRi] using hk), if_pos (by simpa using hk), List.map_cons, ih]
    · rw [if_neg (by simpa [mkRi] using hk), if_neg (by simpa using hk), ih]

/-- A duplicate-free key list admits at most one entry per key. -/
theorem filter_key_len_le_one (k : String) :
    ∀ m : RolloverMap, (m.map Prod.fst).Nodup →
      (m.filter (fun e => e.1 = k)).length ≤ 1 := by
  intro m
  induction m with
  | nil => intro _; simp
  | cons e m ih =>
    intro hnd
    obtain ⟨k', v'⟩ := e
    rw [List.map_cons, List.nodup_cons] at hnd
    rw [List.filter_cons]
    by_cases hk : k' = k
    · rw [if_pos (by simpa using hk)]
      subst hk
      have hnil : m.filter (fun e => e.1 = k') = [] := by
        apply List.filter_eq_nil_iff.mpr
        intro e he
        simp only [decide_eq_true_eq]
        intro hEq
        exact hnd.1 (List.mem_map.mpr ⟨e, he, hEq⟩)
      simp [hnil]
    · rw [if_neg (by simpa using hk)]
      exact ih hnd.2

/-- The per-key cache bound follows from the mapping-image invariant. -/
theorem riCount_le_one_of_inv {db : DB} {tm pm : String} {now : Nat} {m : RolloverMap}
    (hf : db.rollover_items.filter (fun x => x.targetMonth = tm) = m.map (mkRi tm pm now))
    (hnd : (m.map Prod.fst).Nodup) (k : String) : riCount db tm k ≤ 1 := by
  unfold riCount
  rw [hf, mkRi_filter_key, List.length_map]
  exact filter_key_len_le_one k m hnd

/-- When cached entries exist for the target month, the Calculator loads
them without writing. -/
theorem ensure_load {db : DB} {tm : String} (pm : String) (now : Nat)
    (hex : db.rollover_items.filter (fun r => r.targetMonth = tm) ≠ []) :
    ensureRolloverItemsCalculated db tm pm now
      = (loadMap (db.rollover_items.filter (fun r => r.targetMonth = tm)), db) := by
  simp only [ensureRolloverItemsCalculated]
  rw [if_pos hex]

/-- With no cached entries and non-empty previous data, the Calculator
runs its fold. -/
theorem ensure_fresh {db : DB} {tm pm : String} (now : Nat)
    (hex : db.rollover_items.filter (fun r => r.targetMonth = tm) = [])
    (hprev : db.leader_board.filter (fun r => r.month = pm) ≠ []) :
    ensureRolloverItemsCalculated db tm pm now
      = (((db.leader_board.filter (fun r => r.month = pm)).foldl
            (ensureStep tm pm now) ([], db.rollover_items)).1,
         { db with rollover_items :=
            ((db.leader_board.filter (fun r => r.month = pm)).foldl
              (ensureStep tm pm now) ([], db.rollover_items)).2 }) := by
  simp only [ensureRolloverItemsCalculated]
  rw [if_neg (by simp [hex]), if_neg hprev]

/-- C2: the Calculator is idempotent. A second run for the same target
month (with unchanged previous-month source data — the Calculator never
writes to the agent-month records) returns a mapping with identical
contents, and the number of persisted cache records never exceeds one per
agent key (an invariant the upsert keyed by (targetMonth, agentKey)
preserves). -/
theorem c2_calculator_idempotent (db : DB) (tm pm : String) (n1 n2 : Nat)
    (h : ∀ k, riCount db tm k ≤ 1) :
    (ensureRolloverItemsCalculated
        (ensureRolloverItemsCalculated db tm pm n1).2 tm pm n2).1
      = (ensureRolloverItemsCalculated db tm pm n1).1 ∧
    ∀ k, riCount
        (ensureRolloverItemsCalculated
          (ensureRolloverItemsCalculated db tm pm n1).2 tm pm n2).2 tm k ≤ 1 := by
  by_cases hex : db.rollover_items.filter (fun r => r.targetMonth = tm) = []
  · by_cases hprev : db.leader_board.filter (fun r => r.month = pm) = []
    · rw [ensure_of_empty db tm pm n1 hex hprev]
      rw [ensure_of_empty db tm pm n2 hex hprev]
      exact ⟨rfl, h⟩
    · rw [ensure_fresh n1 hex hprev]
      obtain ⟨hfilt, hnd, hne⟩ :=
        ensureFold_inv tm pm n1 (db.leader_board.filter (fun r => r.month = pm))
          [] db.rollover_items (by simpa using hex) (by simp) (by simp)
      by_cases hm1 : ((db.leader_board.filter (fun r => r.month = pm)).foldl
          (ensureStep tm pm n1) ([], db.rollover_items)).1 = []
      · have hex2 : ({ db with rollover_items :=
            ((db.leader_board.filter (fun r => r.month = pm)).foldl
              (ensureStep tm pm n1) ([], db.rollover_items)).2 } : DB).rollover_items.filter
            (fun r => r.targetMonth = tm) = [] := by
          simpa [hm1] using hfilt
        have hprev2 : ({ db with rollover_items :=
            ((db.leader_board.filter (fun r => r.month = pm)).foldl
              (ensureStep tm pm n1) ([], db.rollover_items)).2 } : DB).leader_board.filter
            (fun r => r.month = pm) ≠ [] := hprev
        rw [ensure_fresh n2 hex2 hprev2]
        constructor
        · exact ensureFold_fst tm pm n2 n1 _ [] _ _
        · intro k
          obtain ⟨hfilt2, hnd2, _⟩ :=
            ensureFold_inv tm pm n2 (db.leader_board.filter (fun r => r.month = pm))
              [] _ (by simpa using hex2) (by simp) (by simp)
          exact riCount_le_one_of_inv hfilt2 hnd2 k
      · have hex2 : ({ db with rollover_items :=
            ((db.leader_board.filter (fun r => r.month = pm)).foldl
              (ensureStep tm pm n1) ([], db.rollover_items)).2 } : DB).rollover_items.filter
            (fun r => r.targetMonth = tm) ≠ [] := by
          intro hc
          rw [show ({ db with rollover_items :=
            ((db.leader_board.filter (fun r => r.month = pm)).foldl
              (ensureStep tm pm n1) ([], db.rollover_items)).2 } : DB).rollover_items =
            ((db.leader_board.filter (fun r => r.month = pm)).foldl
              (ensureStep tm pm n1) ([], db.rollover_items)).2 from rfl, hfilt] at hc
          exact hm1 (List.map_eq_nil_iff.mp hc)
        rw [ensure_load pm n2 hex2]
        have hload : loadMap (({ db with rollover_items :=
            ((db.leader_board.filter (fun r => r.month = pm)).foldl
              (ensureStep tm pm n1) ([], db.rollover_items)).2 } : DB).rollover_items.filter
            (fun r => r.targetMonth = tm))
            = ((db.leader_board.filter (fun r => r.month = pm)).foldl
                (ensureStep tm pm n1) ([], db.rollover_items)).1 := by
          rw [show ({ db with rollover_items :=
            ((db.leader_board.filter (fun r => r.month = pm)).foldl
              (ensureStep tm pm n1) ([], db.rollover_items)).2 } : DB).rollover_items =
            ((db.leader_board.filter (fun r => r.month = pm)).foldl
              (ensureStep tm pm n1) ([], db.rollover_items)).2 from rfl, hfilt]
          unfold loadMap
          rw [loadMap_map_mkRi tm pm n1 _ [] hne hnd (by simp)]
          rfl
        exact ⟨hload, fun k => riCount_le_one_of_inv hfilt hnd k⟩
  · rw [ensure_load pm n1 hex, ensure_load pm n2 hex]
    exact ⟨rfl, h⟩

/-- The previous-month record of the C2 witness. -/
def recC2W : LbRecord :=
  ⟨"2026-01", some "u1_202601", some "X",
   [some ⟨some "A", some "50", none, none, none⟩,
    some ⟨some "B", some "75", none, none, none⟩],
   [some ⟨some "A", some 50⟩], .missing, none⟩

/-- Witness for C2, at a store with one previous-month record carrying an
incomplete commission. -/
theorem c2_witness :
    (∀ k, riCount ⟨[recC2W], [], []⟩ "2026-02" k ≤ 1) ∧
    ((ensureRolloverItemsCalculated
        (ensureRolloverItemsCalculated ⟨[recC2W], [], []⟩ "2026-02" "2026-01" 1).2
        "2026-02" "2026-01" 2).1
      = (ensureRolloverItemsCalculated ⟨[recC2W], [], []⟩ "2026-02" "2026-01" 1).1 ∧
     ∀ k, riCount
        (ensureRolloverItemsCalculated
          (ensureRolloverItemsCalculated ⟨[recC2W], [], []⟩ "2026-02" "2026-01" 1).2
          "2026-02" "2026-01" 2).2 "2026-02" k ≤ 1) :=
  ⟨fun k => by simp [riCount],
   c2_calculator_idempotent ⟨[recC2W], [], []⟩ "2026-02" "2026-01" 1 2
     (fun k => by simp [riCount])⟩

/-- A decimal digit differs from every non-digit character. -/
theorem ne_of_digit {c x : Char} (h : c.isDigit = true) (hx : x.isDigit = false) :
    c ≠ x := by
  rintro rfl
  rw [h] at hx
  cases hx

/-- A decimal digit is not JavaScript whitespace. -/
theorem isWs_of_digit {c : Char} (h : c.isDigit = true) : isWsChar c = false := by
  unfold isWsChar
  have hne : ∀ x : Char, x.isDigit = false → decide (c = x) = false := by
    intro x hx
    simp only [decide_eq_false_iff_not]
    exact ne_of_digit h hx
  simp [hne ' ' (by decide), hne '\t' (by decide), hne '\n' (by decide),
    hne '\x0d' (by decide), hne '\x0b' (by decide), hne '\x0c' (by decide)]

/-- Dropping by a predicate that holds nowhere drops nothing. -/
theorem dropWhile_all_false {p : Char → Bool} {l : List Char}
    (h : ∀ c ∈ l, p c = false) : l.dropWhile p = l := by
  cases l with
  | nil => rfl
  | cons c cs => rw [List.dropWhile_cons, h c (by simp)]; simp

/-- Taking by a predicate that holds everywhere takes everything. -/
theorem takeWhile_all_true {p : Char → Bool} {l : List Char}
    (h : ∀ c ∈ l, p c = true) : l.takeWhile p = l ∧ l.dropWhile p = [] := by
  induction l with
  | nil => exact ⟨rfl, rfl⟩
  | cons c cs ih =>
    have hc := h c (by simp)
    have := ih (fun x hx => h x (by simp [hx]))
    rw [List.takeWhile_cons, List.dropWhile_cons, hc]
    simp [this.1, this.2]

/-- Trimming an all-digit character list is the identity. -/
theorem jsTrimChars_of_digits {l : List Char}
    (h : ∀ c ∈ l, c.isDigit = true) : jsTrimChars l = l := by
  unfold jsTrimChars
  rw [dropWhile_all_false (fun c hc => isWs_of_digit (h c hc))]
  rw [dropWhile_all_false (fun c hc => isWs_of_digit (h c (List.mem_reverse.mp hc)))]
  exact List.reverse_reverse l

/-- Value of the digit character of a digit. -/
theorem digitVal_digitChar {d : Nat} (h : d < 10) : digitVal (digitChar d) = d := by
  interval_cases d <;> decide

/-- The digit character of a digit is a digit character. -/
theorem isDigit_digitChar (d : Nat) : (digitChar d).isDigit = true := by
  unfold digitChar
  split <;> decide

/-- Folding the digit accumulator from an arbitrary accumulator. -/
theorem digitsVal_foldl (acc : Nat) (l : List Char) :
    l.foldl (fun a c => 10 * a + digitVal c) acc
      = acc * 10 ^ l.length + digitsVal l := by
  induction l generalizing acc with
  | nil => simp [digitsVal]
  | cons c cs ih =>
    have h1 := ih (10 * acc + digitVal c)
    have h2 := ih (digitVal c)
    simp only [List.foldl_cons] at h1 h2 ⊢
    have hd : digitsVal (c :: cs) = digitVal c * 10 ^ cs.length + digitsVal cs := by
      unfold digitsVal
      simpa using h2
    rw [h1, hd, List.length_cons]
    ring

/-- Digit values compose over append. -/
theorem digitsVal_append (a b : List Char) :
    digitsVal (a ++ b) = digitsVal a * 10 ^ b.length + digitsVal b := by
  unfold digitsVal
  rw [List.foldl_append]
  exact digitsVal_foldl _ b

/-- With enough fuel, the digit emitter produces digit characters whose
value is the encoded number. -/
theorem natDecCharsAux_spec (f : Nat) :
    ∀ n, n < 10 ^ f →
      (∀ c ∈ natDecCharsAux f n, c.isDigit = true) ∧
      digitsVal (natDecCharsAux f n) = n := by
  induction f with
  | zero =>
    intro n hn
    have : n = 0 := by simpa using hn
    subst this
    exact ⟨by simp [natDecCharsAux], by simp [natDecCharsAux, digitsVal]⟩
  | succ f ih =>
    intro n hn
    by_cases hlt : n < 10
    · refine ⟨?_, ?_⟩
      · intro c hc
        simp [natDecCharsAux, hlt] at hc
        subst hc
        exact isDigit_digitChar n
      · simp [natDecCharsAux, hlt, digitsVal, digitVal_digitChar hlt]
    · have hdiv : n / 10 < 10 ^ f := by
        rw [Nat.div_lt_iff_lt_mul (by omega)]
        calc n < 10 ^ (f + 1) := hn
        _ = 10 ^ f * 10 := by ring
      obtain ⟨hdig, hval⟩ := ih (n / 10) hdiv
      refine ⟨?_, ?_⟩
      · intro c hc
        simp only [natDecCharsAux, if_neg hlt, List.mem_append, List.mem_singleton] at hc
        rcases hc with hc | rfl
        · exact hdig c hc
        · exact isDigit_digitChar _
      · simp only [natDecCharsAux, if_neg hlt]
        rw [digitsVal_append, hval]
        have : digitsVal [digitChar (n % 10)] = n % 10 := by
          simp [digitsVal, digitVal_digitChar (Nat.mod_lt n (by omega))]
        rw [this]
        simp
        omega

/-- Every natural number is below `10 ^ (n + 1)`. -/
theorem lt_pow_succ (n : Nat) : n < 10 ^ (n + 1) := by
  calc n < 10 ^ n := Nat.lt_pow_self (by omega) n
  _ ≤ 10 ^ (n + 1) := Nat.pow_le_pow_right (by omega) (by omega)

/-- The decimal digits of `n` are digit characters. -/
theorem natDecChars_digits (n : Nat) : ∀ c ∈ natDecChars n, c.isDigit = true :=
  (natDecCharsAux_spec (n + 1) n (lt_pow_succ n)).1

/-- The decimal digits of `n` denote `n`. -/
theorem digitsVal_natDecChars (n : Nat) : digitsVal (natDecChars n) = n :=
  (natDecCharsAux_spec (n + 1) n (lt_pow_succ n)).2

/-- For positive `n` the decimal digits start with a non-zero digit. -/
theorem natDecCharsAux_head (f : Nat) :
    ∀ n, 1 ≤ n → n < 10 ^ f →
      ∃ c cs, natDecCharsAux f n = c :: cs ∧ c ≠ '0' := by
  induction f with
  | zero => intro n h1 h2; omega
  | succ f ih =>
    intro n h1 h2
    by_cases hlt : n < 10
    · refine ⟨digitChar n, [], by simp [natDecCharsAux, hlt], ?_⟩
      interval_cases n <;> decide
    · have hdiv : n / 10 < 10 ^ f := by
        rw [Nat.div_lt_iff_lt_mul (by omega)]
        calc n < 10 ^ (f + 1) := h2
        _ = 10 ^ f * 10 := by ring
      obtain ⟨c, cs, heq, hne⟩ := ih (n / 10) (by omega) hdiv
      exact ⟨c, cs ++ [digitChar (n % 10)], by simp [natDecCharsAux, hlt, heq], hne⟩

/-- For positive `n` the decimal string starts with a non-zero digit. -/
theorem natDecChars_head {n : Nat} (h : 1 ≤ n) :
    ∃ c cs, natDecChars n = c :: cs ∧ c ≠ '0' :=
  natDecCharsAux_head (n + 1) n h (lt_pow_succ n)

/-- The split function never returns the empty list. -/
theorem splitCh_ne_nil (sep : Char) (l : List Char) : splitCh sep l ≠ [] := by
  cases l with
  | nil => simp [splitCh]
  | cons c cs =>
    unfold splitCh
    split
    · simp
    · split <;> simp

/-- Splitting a separator-free list yields that single piece. -/
theorem splitCh_of_no_sep {sep : Char} {l : List Char}
    (h : ∀ c ∈ l, c ≠ sep) : splitCh sep l = [l] := by
  induction l with
  | nil => rfl
  | cons c cs ih =>
    have hc : c ≠ sep := h c (by simp)
    have hcs := ih (fun x hx => h x (by simp [hx]))
    unfold splitCh
    rw [if_neg hc, hcs]

/-- Splitting at the separator between a separator-free head and a tail. -/
theorem splitCh_sep_append {sep : Char} {a : List Char} (b : List Char)
    (h : ∀ c ∈ a, c ≠ sep) :
    splitCh sep (a ++ sep :: b) = a :: splitCh sep b := by
  induction a with
  | nil => simp [splitCh]
  | cons c cs ih =>
    have hc : c ≠ sep := h c (by simp)
    have hcs := ih (fun x hx => h x (by simp [hx]))
    simpa [splitCh, hc] using by rw [hcs]

/-- Coercion of a whole digit string with `Number` yields its value. -/
theorem jsToNumber_natDec {y : Nat} (hy : 1 ≤ y) :
    jsToNumber (natDec y) = .rat ⟨(y : Int), 0⟩ := by
  obtain ⟨c, cs, heq, hne0⟩ := natDecChars_head hy
  have hdigits := natDecChars_digits y
  have hdata : (natDec y).data = natDecChars y := rfl
  have htrim : jsTrimChars (natDec y).data = natDecChars y := by
    rw [hdata]; exact jsTrimChars_of_digits hdigits
  have hcdig : c.isDigit = true := hdigits c (by rw [heq]; simp)
  unfold jsToNumber
  rw [htrim, heq]
  rw [if_neg (by simp)]
  rw [if_neg ?hinf1]
  case hinf1 =>
    simp only [Bool.or_eq_true, decide_eq_true_eq]
    rintro (h | h) <;>
    · have : c = (c :: cs).headD ' ' := rfl
      rw [h] at this
      simp at this
      subst this
      simp [Char.isDigit] at hcdig
  rw [if_neg ?hinf2]
  case hinf2 =>
    intro h
    have : c = (c :: cs).headD ' ' := rfl
    rw [show ((c :: cs) = "-Infinity".data) from by exact_mod_cast h] at this
    simp at this
    subst this
    simp [Char.isDigit] at hcdig
  have hnum : numDecFull (c :: cs) = some ⟨(y : Int), 0⟩ := by
    have hall : ∀ x ∈ c :: cs, x.isDigit = true := by rw [← heq]; exact hdigits
    obtain ⟨htake, hdrop⟩ := takeWhile_all_true hall
    unfold numDecFull takeDigits
    rw [htake, hdrop]
    dsimp only
    rw [if_neg (by simp)]
    unfold numExponentFull decValue
    rw [List.append_nil, ← heq, digitsVal_natDecChars]
    simp
  split
  · rename_i x rest hpat
    exfalso
    rw [List.cons.injEq] at hpat
    exact hne0 hpat.1
  · rename_i rest hpat
    exfalso
    rw [List.cons.injEq] at hpat
    have : c = '+' := hpat.1
    subst this
    simp [Char.isDigit] at hcdig
  · rename_i rest hpat
    exfalso
    rw [List.cons.injEq] at hpat
    have : c = '-' := hpat.1
    subst this
    simp [Char.isDigit] at hcdig
  · rw [hnum]

/-- The `Date(year, month, 1)` model on integral arguments. -/
theorem mkDateYM_rat_int (a b : Int) :
    mkDateYM (.rat ⟨a, 0⟩) (.rat ⟨b, 0⟩)
      = (if -271821 ≤ (if 0 ≤ a ∧ a ≤ 99 then 1900 + a else a) + Int.fdiv b 12 ∧
            (if 0 ≤ a ∧ a ≤ 99 then 1900 + a else a) + Int.fdiv b 12 ≤ 275760
         then some ((if 0 ≤ a ∧ a ≤ 99 then 1900 + a else a) + Int.fdiv b 12,
                    (Int.emod b 12).toNat)
         else none) := by
  have htr : ∀ i : Int, Dec10.trunc ⟨i, 0⟩ = i := by
    intro i
    simp [Dec10.trunc]
  simp only [mkDateYM, htr]

/-- Nonnegative integers print as their natural value. -/
theorem intDec_of_nonneg {i : Int} (h : 0 ≤ i) : intDec i = natDec i.toNat := by
  unfold intDec
  rw [if_neg (by omega)]

/-- Evaluation of the previous-month formatting for a four-digit year
outside the `Date` two-digit range, with the month offset precomputed. -/
theorem c6_core (y : Nat) (hy1 : 1000 ≤ y) (hy2 : y ≤ 9999) (b fd md : Int)
    (hfd : Int.fdiv b 12 = fd) (hmd : Int.emod b 12 = md)
    (hfdl : -2 ≤ fd) (hfdh : fd ≤ 0) :
    (match mkDateYM (.rat ⟨(y : Int), 0⟩) (.rat ⟨b, 0⟩) with
     | some (yr, mn) => some (intDec yr ++ "-" ++ pad2 (mn + 1))
     | none => some "NaN-NaN")
      = some (natDec ((y : Int) + fd).toNat ++ "-" ++ pad2 (md.toNat + 1)) := by
  rw [mkDateYM_rat_int]
  have hyr : (if 0 ≤ (y : Int) ∧ (y : Int) ≤ 99 then 1900 + (y : Int) else (y : Int))
      = (y : Int) := if_neg (by omega)
  rw [hyr, hfd, hmd, if_pos (by omega)]
  dsimp only
  rw [intDec_of_nonneg (by omega)]

/-- C6 counterexample: the well-formed month `"0099-01"` is mapped to
`"1998-12"` — the `Date` constructor offsets two-digit years by 1900 — and
not to `"0098-12"` as the claim's general year-boundary rule states. -/
theorem c6_counterexample :
    getPreviousMonth "0099-01" = some "1998-12" ∧
    getPreviousMonth "0099-01" ≠ some "0098-12" := by
  constructor
  · decide
  · decide

/-- C6 (amended): for years 1000–9999 the previous-month function behaves
as claimed: `YYYY-01` maps to `(YYYY-1)-12` and months 02–12 decrement
within the year (in particular `"2026-01"` maps to `"2025-12"`). Years
0000–0099 are offset by 1900 by the `Date` constructor and years below
1000 lose their zero padding, so the rule does not extend below 1000. -/
theorem c6_previous_month (y m : Nat) (hy1 : 1000 ≤ y) (hy2 : y ≤ 9999)
    (hm1 : 1 ≤ m) (hm2 : m ≤ 12) :
    getPreviousMonth (natDec y ++ "-" ++ pad2 m)
      = some (if m = 1 then natDec (y - 1) ++ "-" ++ pad2 12
              else natDec y ++ "-" ++ pad2 (m - 1)) := by
  have hydig := natDecChars_digits y
  have hmdig : ∀ c ∈ (pad2 m).data, c.isDigit = true := by
    interval_cases m <;> decide
  have hdata : (natDec y ++ "-" ++ pad2 m).data = natDecChars y ++ '-' :: (pad2 m).data := by
    rw [String.data_append, String.data_append, List.append_assoc]
    rfl
  have hne : (natDec y ++ "-" ++ pad2 m) ≠ "" := by
    intro h
    have hd := congrArg String.data h
    rw [hdata] at hd
    simp at hd
  have hsplit : jsSplit '-' (natDec y ++ "-" ++ pad2 m) = [natDec y, pad2 m] := by
    unfold jsSplit
    rw [hdata]
    rw [splitCh_sep_append _ (fun c hc => ne_of_digit (hydig c hc) (by decide))]
    rw [splitCh_of_no_sep (fun c hc => ne_of_digit (hmdig c hc) (by decide))]
    rfl
  simp only [getPreviousMonth, if_neg hne, hsplit, List.headD_cons, List.get?_cons_succ,
    List.get?_cons_zero]
  rw [jsToNumber_natDec (by omega)]
  have htoNat0 : ((y : Int) + 0).toNat = y := by omega
  have htoNat1 : ((y : Int) + (-1)).toNat = y - 1 := by omega
  interval_cases m
  · rw [show (jsToNumber (pad2 1)).subNat 2 = JsNumber.rat ⟨-1, 0⟩ from by decide,
      c6_core y hy1 hy2 (-1) (-1) 11 (by decide) (by decide) (by decide) (by decide),
      htoNat1]
    simp [intDec]
  · rw [show (jsToNumber (pad2 2)).subNat 2 = JsNumber.rat ⟨0, 0⟩ from by decide,
      c6_core y hy1 hy2 0 0 0 (by decide) (by decide) (by decide) (by decide), htoNat0]
    simp [intDec]
  · rw [show (jsToNumber (pad2 3)).subNat 2 = JsNumber.rat ⟨1, 0⟩ from by decide,
      c6_core y hy1 hy2 1 0 1 (by decide) (by decide) (by decide) (by decide), htoNat0]
    simp [intDec]
  · rw [show (jsToNumber (pad2 4)).subNat 2 = JsNumber.rat ⟨2, 0⟩ from by decide,
      c6_core y hy1 hy2 2 0 2 (by decide) (by decide) (by decide) (by decide), htoNat0]
    simp [intDec]
  · rw [show (jsToNumber (pad2 5)).subNat 2 = JsNumber.rat ⟨3, 0⟩ from by decide,
      c6_core y hy1 hy2 3 0 3 (by decide) (by decide) (by decide) (by decide), htoNat0]
    simp [intDec]
  · rw [show (jsToNumber (pad2 6)).subNat 2 = JsNumber.rat ⟨4, 0⟩ from by decide,
      c6_core y hy1 hy2 4 0 4 (by decide) (by decide) (by decide) (by decide), htoNat0]
    simp [intDec]
  · rw [show (jsToNumber (pad2 7)).subNat 2 = JsNumber.rat ⟨5, 0⟩ from by decide,
      c6_core y hy1 hy2 5 0 5 (by decide) (by decide) (by decide) (by decide), htoNat0]
    simp [intDec]
  · rw [show (jsToNumber (pad2 8)).subNat 2 = JsNumber.rat ⟨6, 0⟩ from by decide,
      c6_core y hy1 hy2 6 0 6 (by decide) (by decide) (by decide) (by decide), htoNat0]
    simp [intDec]
  · rw [show (jsToNumber (pad2 9)).subNat 2 = JsNumber.rat ⟨7, 0⟩ from by decide,
      c6_core y hy1 hy2 7 0 7 (by decide) (by decide) (by decide) (by decide), htoNat0]
    simp [intDec]
  · rw [show (jsToNumber (pad2 10)).subNat 2 = JsNumber.rat ⟨8, 0⟩ from by decide,
      c6_core y hy1 hy2 8 0 8 (by decide) (by decide) (by decide) (by decide), htoNat0]
    simp [intDec]
  · rw [show (jsToNumber (pad2 11)).subNat 2 = JsNumber.rat ⟨9, 0⟩ from by decide,
      c6_core y hy1 hy2 9 0 9 (by decide) (by decide) (by decide) (by decide), htoNat0]
    simp [intDec]
  · rw [show (jsToNumber (pad2 12)).subNat 2 = JsNumber.rat ⟨10, 0⟩ from by decide,
      c6_core y hy1 hy2 10 0 10 (by decide) (by decide) (by decide) (by decide), htoNat0]
    simp [intDec]

/-- Witness for C6 (amended), at the year boundary `2026-01`. -/
theorem c6_witness :
    1000 ≤ 2026 ∧ 2026 ≤ 9999 ∧ 1 ≤ 1 ∧ 1 ≤ 12 ∧
    getPreviousMonth (natDec 2026 ++ "-" ++ pad2 1)
      = some (if 1 = 1 then natDec (2026 - 1) ++ "-" ++ pad2 12
              else natDec 2026 ++ "-" ++ pad2 (1 - 1)) :=
  ⟨by decide, by decide, by decide, by decide,
   c6_previous_month 2026 1 (by decide) (by decide) (by decide) (by decide)⟩

/-- Witness for C9, with a zero earned amount. -/
theorem c9_witness :
    some (⟨some "A", some "100", none, none, none⟩ : PairItem)
        ∈ ([some ⟨some "A", some "100", none, none, none⟩] : List (Option PairItem)) ∧
    some (⟨some " a ", some 0⟩ : EarnedDetail)
        ∈ ([some ⟨some " a ", some 0⟩] : List (Option EarnedDetail)) ∧
    some (⟨some "A", some "100", none, none, none⟩ : PairItem)
        ∉ getIncompleteCommissions [some ⟨some "A", some "100", none, none, none⟩]
            (earnedFilter [some ⟨some " a ", some 0⟩]) :=
  ⟨by decide, by decide,
   c9_earned_exclusion [some ⟨some "A", some "100", none, none, none⟩]
     [some ⟨some " a ", some 0⟩] ⟨some "A", some "100", none, none, none⟩
     ⟨some " a ", some 0⟩ " a " "A"
     (by decide) (by decide) (by decide) (by decide) (by decide)⟩

/-- Witness for C1 (amended), at a singleton mapping and one gap record. -/
theorem c1_witness :
    1 ≤ 3 ∧
    recC1W.month = "2026-01" ∧
    isMissingR recC1W.rollover_commission_list = true ∧
    ((applyIter "2026-01" mapC1W 7 3 ⟨[recC1W], [], []⟩).leader_board
      = [recC1W].map ((applyRecStep "2026-01" mapC1W 7)^[3]) ∧
     (match mapGet mapC1W (resolveKey recC1W.userIdMonthId recC1W.agentName) with
      | some its => its ≠ [] →
          storedItems (((applyRecStep "2026-01" mapC1W 7)^[3] recC1W).rollover_commission_list)
              = its ∧
          ∀ c ∈ its.map rKeyOf, keyCount c (its.map rKeyOf) = 1
      | none => (applyRecStep "2026-01" mapC1W 7)^[3] recC1W = recC1W)) :=
  ⟨by decide, by decide, by decide,
   c1_at_most_once_merge ⟨[recC1W], [], []⟩ "2026-01" mapC1W 7 3 (by decide)
     (fun k its h => by
       by_cases hk : "k" = k
       · simp [mapC1W, mapGet, hk] at h
         rw [← h]
         decide
       · simp [mapC1W, mapGet, hk] at h)
     recC1W (by decide) (by decide)⟩

/-! ## Serialised numbers parse back (towards C5) -/

/-- The character after a serialised JSON value inside the repository's
output: end of input, a separating comma or a closing bracket. -/
def numStop : List Char → Prop
  | [] => True
  | c :: _ => c = ',' ∨ c = ']' ∨ c = '}'

/-- A stop character is not a digit (head form). -/
theorem numStop_not_digit {rest : List Char} (h : numStop rest) :
    ∀ c t, rest = c :: t → c.isDigit = false := by
  intro c t he
  subst he
  simp only [numStop] at h
  rcases h with h | h | h <;> subst h <;> decide

/-- `takeDigits` splits a digit prefix from a non-digit continuation. -/
theorem takeDigits_append {ds : List Char} (rest : List Char)
    (hd : ∀ c ∈ ds, c.isDigit = true)
    (hr : ∀ c t, rest = c :: t → c.isDigit = false) :
    takeDigits (ds ++ rest) = (ds, rest) := by
  induction ds with
  | nil =>
    cases rest with
    | nil => rfl
    | cons c t =>
      have hc := hr c t rfl
      simp [takeDigits, List.takeWhile_cons, List.dropWhile_cons, hc]
  | cons d ds ih =>
    have hd0 : d.isDigit = true := hd d (by simp)
    have hih := ih (fun c hc => hd c (by simp [hc]))
    simp only [takeDigits, List.cons_append, List.takeWhile_cons, List.dropWhile_cons,
      hd0, if_true] at hih ⊢
    simp only [Prod.mk.injEq] at hih
    simp [hih.1, hih.2]

/-- The digit emitter with positive fuel is never empty. -/
theorem natDecCharsAux_ne_nil (f n : Nat) : natDecCharsAux (f + 1) n ≠ [] := by
  unfold natDecCharsAux
  split <;> simp

/-- The decimal digits of a natural number form a non-empty list. -/
theorem natDecChars_cons (n : Nat) : ∃ c t, natDecChars n = c :: t := by
  cases h : natDecChars n with
  | nil => exact absurd h (natDecCharsAux_ne_nil n n)
  | cons c t => exact ⟨c, t, rfl⟩

/-- Length bound for the digit emitter: a positive number below `10 ^ k`
prints in at most `k` digits. -/
theorem natDecCharsAux_len (f : Nat) : ∀ n k, 1 ≤ n → n < 10 ^ k → n < 10 ^ f →
    (natDecCharsAux f n).length ≤ k := by
  induction f with
  | zero =>
    intro n k h1 h2 h3
    simp at h3
    omega
  | succ f ih =>
    intro n k h1 h2 h3
    by_cases hlt : n < 10
    · have hk : 1 ≤ k := by
        by_contra hk
        have : k = 0 := by omega
        subst this
        simp at h2
        omega
      simp only [natDecCharsAux, if_pos hlt, List.length_singleton]
      omega
    · have hk2 : 2 ≤ k := by
        by_contra hk2
        have hk1 : k ≤ 1 := by omega
        have hle : (10 : Nat) ^ k ≤ 10 ^ 1 := Nat.pow_le_pow_right (by omega) hk1
        have h101 : (10 : Nat) ^ 1 = 10 := by norm_num
        omega
      have hdivk : n / 10 < 10 ^ (k - 1) := by
        rw [Nat.div_lt_iff_lt_mul (by omega)]
        calc n < 10 ^ k := h2
        _ = 10 ^ (k - 1) * 10 := by
          rw [← Nat.pow_succ]
          congr 1
          omega
      have hdivf : n / 10 < 10 ^ f := by
        rw [Nat.div_lt_iff_lt_mul (by omega)]
        calc n < 10 ^ (f + 1) := h3
        _ = 10 ^ f * 10 := by ring
      have := ih (n / 10) (k - 1) (by omega) hdivk hdivf
      simp only [natDecCharsAux, if_neg hlt, List.length_append, List.length_singleton]
      omega

/-- Length bound for the decimal digits. -/
theorem natDecChars_length_le {n k : Nat} (h1 : 1 ≤ n) (h2 : n < 10 ^ k) :
    (natDecChars n).length ≤ k :=
  natDecCharsAux_len (n + 1) n k h1 h2 (lt_pow_succ n)

/-- The last printed digit is the number's last decimal digit. -/
theorem natDecCharsAux_last (f : Nat) : ∀ n, n < 10 ^ f →
    (natDecCharsAux f n) ≠ [] →
    (natDecCharsAux f n).getLast? = some (digitChar (n % 10)) := by
  induction f with
  | zero =>
    intro n h1 h2
    simp [natDecCharsAux] at h2
  | succ f ih =>
    intro n h1 h2
    by_cases hlt : n < 10
    · simp only [natDecCharsAux, if_pos hlt]
      rw [Nat.mod_eq_of_lt hlt]
      rfl
    · simp only [natDecCharsAux, if_neg hlt]
      exact List.getLast?_concat _

/-- A non-zero digit prints as a non-zero character. -/
theorem digitChar_ne_zero {m : Nat} (h : m ≠ 0) : digitChar m ≠ '0' := by
  unfold digitChar
  split <;> first | omega | decide

/-- Trimming zeros of a list ending in a non-zero character is the
identity. -/
theorem trimZeros_of_last {l : List Char} {c : Char} (h : l.getLast? = some c)
    (hc : c ≠ '0') : trimZeros l = l := by
  unfold trimZeros
  have hrev : l.reverse.head? = some c := by
    rw [List.head?_reverse]
    exact h
  cases hrev' : l.reverse with
  | nil => rw [hrev'] at hrev; simp at hrev
  | cons d t =>
    rw [hrev'] at hrev
    simp only [List.head?_cons, Option.some.injEq] at hrev
    subst hrev
    rw [List.dropWhile_cons]
    have hd : decide (d = '0') = false := by simp [hc]
    rw [hd]
    simp only [Bool.false_eq_true, if_false]
    rw [← hrev', List.reverse_reverse]

/-- A run of zero characters denotes zero. -/
theorem digitsVal_replicate_zero (p : Nat) : digitsVal (List.replicate p '0') = 0 := by
  induction p with
  | zero => rfl
  | succ p ih =>
    rw [List.replicate_succ]
    unfold digitsVal at ih ⊢
    rw [List.foldl_cons]
    have : (10 * 0 + digitVal '0') = 0 := by decide
    rw [this]
    exact ih


/-- At a stop character (or end of input) there is no fraction. -/
theorem numFrac_stop {rest : List Char} (hstop : numStop rest) :
    numFrac rest = some ([], rest) := by
  rw [numFrac.eq_def]
  split
  · rename_i r2
    simp only [numStop] at hstop
    rcases hstop with h | h | h <;> exact absurd h (by decide)
  · rfl

/-- At a stop character (or end of input) there is no exponent. -/
theorem numExp_stop {rest : List Char} (hstop : numStop rest) :
    numExp rest = some (0, rest) := by
  rw [numExp.eq_def]
  split
  · rename_i e r4
    simp only [numStop] at hstop
    rw [if_neg ?_]
    rcases hstop with h | h | h <;> subst h <;> simp
  · rfl

/-- The number body at a printed natural number followed by a stop. -/
theorem parseNumBody_int (neg : Bool) (m : Nat) (rest : List Char) (hstop : numStop rest) :
    parseNumBody neg (natDecChars m ++ rest)
      = some (if neg then Dec10.neg ⟨m, 0⟩ else ⟨m, 0⟩, rest) := by
  obtain ⟨c0, t0, hm⟩ := natDecChars_cons m
  have hc0 : c0.isDigit = true := natDecChars_digits m c0 (by rw [hm]; simp)
  rw [hm, List.cons_append]
  simp only [parseNumBody]
  rw [if_neg (by simp [hc0])]
  have hmain : ∀ ipart r1, ipart = natDecChars m → r1 = rest →
      (match numFrac r1 with
       | none => none
       | some (fpart, r3) =>
         match numExp r3 with
         | none => none
         | some (ex, r) =>
           some (if neg then (decValue ipart fpart ex).neg else decValue ipart fpart ex, r))
        = some (if neg then Dec10.neg ⟨m, 0⟩ else ⟨m, 0⟩, rest) := by
    intro ipart r1 hi hr
    subst hi; subst hr
    rw [numFrac_stop hstop]
    dsimp only
    rw [numExp_stop hstop]
    dsimp only
    have hdv : decValue (natDecChars m) [] 0 = ⟨m, 0⟩ := by
      unfold decValue
      rw [List.append_nil, digitsVal_natDecChars]
      rfl
    rw [hdv]
  by_cases hm0 : m = 0
  · subst hm0
    have h0 : ('0' : Char) :: ([] : List Char) = c0 :: t0 := hm
    obtain ⟨hc, ht⟩ := List.cons.inj h0
    subst hc; subst ht
    rw [if_pos rfl]
    dsimp only
    exact hmain ['0'] ([] ++ rest) hm (List.nil_append rest)
  · obtain ⟨c0', t0', hm', hne0⟩ := natDecChars_head (by omega : 1 ≤ m)
    rw [hm] at hm'
    obtain ⟨hc, ht⟩ := List.cons.inj hm'
    subst hc; subst ht
    rw [if_neg hne0]
    have htd : takeDigits (c0 :: (t0 ++ rest)) = (natDecChars m, rest) := by
      have : c0 :: (t0 ++ rest) = natDecChars m ++ rest := by rw [hm]; rfl
      rw [this]
      exact takeDigits_append rest (natDecChars_digits m) (numStop_not_digit hstop)
    rw [htd]
    dsimp only
    exact hmain _ _ rfl rfl

/-- Unfolding equation for `numFrac` at a decimal point. -/
theorem numFrac_dot (X : List Char) :
    numFrac ('.' :: X)
      = (if (takeDigits X).1 = [] then none
         else some ((takeDigits X).1, (takeDigits X).2)) := by
  rw [numFrac.eq_def]
  split
  · rename_i r2' heq
    obtain ⟨-, hr⟩ := List.cons.inj heq
    subst hr
    rfl
  · rename_i hne
    exact (hne X rfl).elim

/-- The number body at a printed decimal fraction followed by a stop. -/
theorem parseNumBody_frac (neg : Bool) (m k : Nat) (rest : List Char)
    (hk : 1 ≤ k) (hm10 : m % 10 ≠ 0) (hstop : numStop rest) :
    parseNumBody neg
        ((natDecChars (m / 10 ^ k)
            ++ '.' :: (List.replicate (k - (natDecChars (m % 10 ^ k)).length) '0'
                        ++ natDecChars (m % 10 ^ k))) ++ rest)
      = some (if neg then Dec10.neg ⟨m, -(k : Int)⟩ else ⟨m, -(k : Int)⟩, rest) := by
  set fr := m % 10 ^ k with hfrdef
  set ip := m / 10 ^ k with hipdef
  have hfr0 : fr ≠ 0 := by
    intro h
    have hdvd : (10 : Nat) ∣ 10 ^ k := dvd_pow_self 10 (by omega)
    have := Nat.mod_mod_of_dvd m hdvd
    rw [← hfrdef, h] at this
    simp at this
    exact hm10 this.symm
  have hfrlt : fr < 10 ^ k := Nat.mod_lt _ (Nat.pos_pow_of_pos k (by omega))
  set len := (natDecChars fr).length with hlendef
  have hlen : len ≤ k := natDecChars_length_le (by omega) hfrlt
  set fd := List.replicate (k - len) '0' ++ natDecChars fr with hfddef
  have hfdlen : fd.length = k := by
    rw [hfddef, List.length_append, List.length_replicate]
    omega
  have hfddig : ∀ c ∈ fd, c.isDigit = true := by
    intro c hc
    rw [hfddef, List.mem_append] at hc
    rcases hc with hc | hc
    · rw [List.eq_of_mem_replicate hc]; decide
    · exact natDecChars_digits fr c hc
  have hfdval : digitsVal fd = fr := by
    rw [hfddef, digitsVal_append, digitsVal_replicate_zero, digitsVal_natDecChars]
    ring
  have hfdne : fd ≠ [] := by
    intro h
    rw [h] at hfdlen
    simp at hfdlen
    omega
  -- main tail computation shared by both integer-part branches
  have hmain : ∀ ipart r1, ipart = natDecChars ip → r1 = '.' :: (fd ++ rest) →
      (match numFrac r1 with
       | none => none
       | some (fpart, r3) =>
         match numExp r3 with
         | none => none
         | some (ex, r) =>
           some (if neg then (decValue ipart fpart ex).neg else decValue ipart fpart ex, r))
        = some (if neg then Dec10.neg ⟨m, -(k : Int)⟩ else ⟨m, -(k : Int)⟩, rest) := by
    intro ipart r1 hi hr
    subst hi; subst hr
    rw [numFrac_dot]
    rw [takeDigits_append rest hfddig (numStop_not_digit hstop)]
    dsimp only
    rw [if_neg hfdne]
    dsimp only
    rw [numExp_stop hstop]
    dsimp only
    have hdv : decValue (natDecChars ip) fd 0 = ⟨m, -(k : Int)⟩ := by
      unfold decValue
      have h1 : digitsVal (natDecChars ip ++ fd) = m := by
        rw [digitsVal_append, digitsVal_natDecChars, hfdval, hfdlen]
        calc ip * 10 ^ k + fr = 10 ^ k * ip + fr := by ring
        _ = m := Nat.div_add_mod m (10 ^ k)
      rw [h1, hfdlen]
      congr 1
      omega
    rw [hdv]
  rw [List.append_assoc, List.cons_append]
  obtain ⟨c0, t0, hip⟩ := natDecChars_cons ip
  have hc0 : c0.isDigit = true := natDecChars_digits ip c0 (by rw [hip]; simp)
  rw [hip, List.cons_append]
  simp only [parseNumBody]
  rw [if_neg (by simp [hc0])]
  by_cases hip0 : ip = 0
  · have h0 : natDecChars ip = ['0'] := by rw [hip0]; rfl
    rw [hip] at h0
    obtain ⟨hc, ht⟩ := List.cons.inj h0
    subst hc; subst ht
    rw [if_pos rfl]
    dsimp only
    exact hmain ['0'] _ (by rw [hip0]; rfl) (List.nil_append _)
  · obtain ⟨c0', t0', hip', hne0⟩ := natDecChars_head (Nat.one_le_iff_ne_zero.mpr hip0)
    rw [hip] at hip'
    obtain ⟨hc, ht⟩ := List.cons.inj hip'
    subst hc; subst ht
    rw [if_neg hne0]
    have htd : takeDigits (c0 :: (t0 ++ '.' :: (fd ++ rest)))
        = (natDecChars ip, '.' :: (fd ++ rest)) := by
      have : c0 :: (t0 ++ '.' :: (fd ++ rest)) = natDecChars ip ++ '.' :: (fd ++ rest) := by
        rw [hip]; rfl
      rw [this]
      exact takeDigits_append _ (natDecChars_digits ip) (by intro c t h; cases h; decide)
    rw [htd]
    dsimp only
    exact hmain _ _ rfl rfl

/-- A mantissa not divisible by ten has an absolute value not divisible by
ten. -/
theorem natAbs_mod10_ne {i : Int} (h : i % 10 ≠ 0) : i.natAbs % 10 ≠ 0 := by
  intro hm
  apply h
  have hdvd : (10 : Nat) ∣ i.natAbs := Nat.dvd_of_mod_eq_zero hm
  have hdvd2 : (10 : Int) ∣ i := by
    rw [← Int.natAbs_dvd_natAbs]
    exact hdvd
  exact Int.emod_eq_zero_of_dvd hdvd2

/-- Printed form of a canonical integer. -/
theorem qNumChars_int (d : Dec10) (he : d.exp10 = 0) :
    qNumChars d = (if d.mant < 0 then ['-'] else []) ++ natDecChars d.mant.natAbs := by
  simp only [qNumChars, he]
  rw [if_pos (by omega : (0 : Int) ≤ 0)]
  norm_num

/-- Printed form of a canonical fraction. -/
theorem qNumChars_frac (d : Dec10) (he : d.exp10 < 0) (h10 : d.mant % 10 ≠ 0) :
    qNumChars d
      = (if d.mant < 0 then ['-'] else [])
        ++ (natDecChars (d.mant.natAbs / 10 ^ (-d.exp10).toNat)
            ++ '.' :: (List.replicate
                  ((-d.exp10).toNat
                    - (natDecChars (d.mant.natAbs % 10 ^ (-d.exp10).toNat)).length) '0'
                ++ natDecChars (d.mant.natAbs % 10 ^ (-d.exp10).toNat))) := by
  have hm10 : d.mant.natAbs % 10 ≠ 0 := natAbs_mod10_ne h10
  set k := (-d.exp10).toNat with hkdef
  have hk : 1 ≤ k := by omega
  set m := d.mant.natAbs with hmdef
  set fr := m % 10 ^ k with hfrdef
  have hfr10 : fr % 10 = m % 10 := Nat.mod_mod_of_dvd m (dvd_pow_self 10 (by omega))
  have hfr0 : fr ≠ 0 := by
    intro h
    rw [h] at hfr10
    simp at hfr10
    exact hm10 hfr10.symm
  have hlast : (List.replicate (k - (natDecChars fr).length) '0' ++ natDecChars fr).getLast?
      = some (digitChar (fr % 10)) := by
    rw [List.getLast?_append_of_ne_nil _
      (show natDecChars fr ≠ [] from natDecCharsAux_ne_nil fr fr)]
    exact natDecCharsAux_last (fr + 1) fr (lt_pow_succ fr) (natDecCharsAux_ne_nil fr fr)
  have htrim : trimZeros (List.replicate (k - (natDecChars fr).length) '0' ++ natDecChars fr)
      = List.replicate (k - (natDecChars fr).length) '0' ++ natDecChars fr := by
    refine trimZeros_of_last hlast (digitChar_ne_zero ?_)
    rw [hfr10]
    exact hm10
  simp only [qNumChars]
  rw [if_neg (by omega : ¬ (0 : Int) ≤ d.exp10), if_neg hfr0, htrim]
  rw [List.append_assoc]

/-- `JSON.parse`'s number parser inverts the canonical printer. -/
theorem parseJsonNumber_qNum (d : Dec10) (hc : DecCanon d) (rest : List Char)
    (hstop : numStop rest) :
    parseJsonNumber (qNumChars d ++ rest) = some (d, rest) := by
  have hbody : ∀ body : List Char,
      (∃ c t, body = c :: t ∧ c.isDigit = true) →
      (∀ neg, parseNumBody neg (body ++ rest)
        = some ((if neg then Dec10.neg ⟨(d.mant.natAbs : Int), d.exp10⟩
                 else ⟨(d.mant.natAbs : Int), d.exp10⟩), rest)) →
      qNumChars d = (if d.mant < 0 then ['-'] else []) ++ body →
      parseJsonNumber (qNumChars d ++ rest) = some (d, rest) := by
    intro body hhead hB hq
    rw [hq]
    by_cases hneg : d.mant < 0
    · rw [if_pos hneg]
      rw [List.cons_append, List.nil_append, List.cons_append]
      rw [parseJsonNumber.eq_def]
      split
      · rename_i r heq
        obtain ⟨-, hr⟩ := List.cons.inj heq
        subst hr
        rw [hB true, if_pos rfl]
        have h1 : -((d.mant.natAbs : Int)) = d.mant := by omega
        have hd : Dec10.neg ⟨(d.mant.natAbs : Int), d.exp10⟩ = d := by
          show (⟨-(d.mant.natAbs : Int), d.exp10⟩ : Dec10) = d
          rw [h1]
        rw [hd]
      · rename_i hne
        exact (hne (body ++ rest) rfl).elim
    · rw [if_neg hneg, List.nil_append]
      rw [parseJsonNumber.eq_def]
      split
      · rename_i r heq
        obtain ⟨c, t, hb, hcd⟩ := hhead
        rw [hb, List.cons_append] at heq
        obtain ⟨hc', -⟩ := List.cons.inj heq
        rw [hc'] at hcd
        exact absurd hcd (by decide)
      · rw [hB false, if_neg (by simp)]
        have h1 : ((d.mant.natAbs : Int)) = d.mant := by omega
        have hd : (⟨(d.mant.natAbs : Int), d.exp10⟩ : Dec10) = d := by
          rw [h1]
        rw [hd]
  rcases hc with he | ⟨he, h10⟩
  · refine hbody (natDecChars d.mant.natAbs) ?_ ?_ (qNumChars_int d he)
    · obtain ⟨c, t, hm⟩ := natDecChars_cons d.mant.natAbs
      exact ⟨c, t, hm, natDecChars_digits _ c (by rw [hm]; simp)⟩
    · intro neg
      have h := parseNumBody_int neg d.mant.natAbs rest hstop
      rw [he]
      exact h
  · have hm10 : d.mant.natAbs % 10 ≠ 0 := natAbs_mod10_ne h10
    have hk : 1 ≤ (-d.exp10).toNat := by omega
    refine hbody _ ?_ ?_ (qNumChars_frac d he h10)
    · obtain ⟨c, t, hm⟩ := natDecChars_cons (d.mant.natAbs / 10 ^ (-d.exp10).toNat)
      refine ⟨c, t ++ '.' :: (List.replicate
          ((-d.exp10).toNat
            - (natDecChars (d.mant.natAbs % 10 ^ (-d.exp10).toNat)).length) '0'
          ++ natDecChars (d.mant.natAbs % 10 ^ (-d.exp10).toNat)), ?_,
        natDecChars_digits _ c (by rw [hm]; simp)⟩
      rw [hm, List.cons_append]
    · intro neg
      have h := parseNumBody_frac neg d.mant.natAbs (-d.exp10).toNat rest hk hm10 hstop
      have hexp : -(((-d.exp10).toNat : Nat) : Int) = d.exp10 := by omega
      rw [hexp] at h
      exact h

/-- A decimal digit is not JSON whitespace. -/
theorem isJsonWs_of_digit {c : Char} (h : c.isDigit = true) : isJsonWs c = false := by
  simp only [isJsonWs, Bool.or_eq_false_iff, decide_eq_false_iff_not]
  exact ⟨⟨⟨ne_of_digit h (by decide), ne_of_digit h (by decide)⟩,
    ne_of_digit h (by decide)⟩, ne_of_digit h (by decide)⟩

/-- Unfolding: the JSON value parser at an opening bracket. -/
theorem parseVal_arr (f : Nat) (X : List Char) :
    parseVal (f + 1) ('[' :: X) = parseArrStart f X := by
  rw [parseVal.eq_def]
  dsimp only
  rw [skipWs_cons _ (by decide)]
  dsimp only
  rw [if_pos rfl]

/-- Unfolding: the JSON value parser at an opening brace. -/
theorem parseVal_obj (f : Nat) (X : List Char) :
    parseVal (f + 1) ('{' :: X) = parseObjStart f X := by
  rw [parseVal.eq_def]
  dsimp only
  rw [skipWs_cons _ (by decide)]
  dsimp only
  rw [if_neg (by decide), if_pos rfl]

/-- Unfolding: the JSON value parser at a string literal. -/
theorem parseVal_str (f : Nat) (X : List Char) :
    parseVal (f + 1) ('"' :: X)
      = match parseStrBody X with
        | some (s, r) => some (.strV ⟨s⟩, r)
        | none => none := by
  rw [parseVal.eq_def]
  dsimp only
  rw [skipWs_cons _ (by decide)]
  dsimp only
  rw [if_neg (by decide), if_neg (by decide), if_pos rfl]

/-- Unfolding: the JSON value parser at the token `true`. -/
theorem parseVal_true (f : Nat) (X : List Char) :
    parseVal (f + 1) ('t' :: 'r' :: 'u' :: 'e' :: X) = some (.boolV true, X) := by
  rw [parseVal.eq_def]
  dsimp only
  rw [skipWs_cons _ (by decide)]
  dsimp only
  rw [if_neg (by decide), if_neg (by decide), if_neg (by decide), if_pos rfl]
  split
  · rename_i r heq
    obtain ⟨-, h2⟩ := List.cons.inj heq
    obtain ⟨-, h3⟩ := List.cons.inj h2
    obtain ⟨-, h4⟩ := List.cons.inj h3
    rw [h4]
  · rename_i hne
    exact (hne X rfl).elim

/-- Unfolding: the JSON value parser at the token `false`. -/
theorem parseVal_false (f : Nat) (X : List Char) :
    parseVal (f + 1) ('f' :: 'a' :: 'l' :: 's' :: 'e' :: X) = some (.boolV false, X) := by
  rw [parseVal.eq_def]
  dsimp only
  rw [skipWs_cons _ (by decide)]
  dsimp only
  rw [if_neg (by decide), if_neg (by decide), if_neg (by decide), if_neg (by decide),
    if_pos rfl]
  split
  · rename_i r heq
    obtain ⟨-, h2⟩ := List.cons.inj heq
    obtain ⟨-, h3⟩ := List.cons.inj h2
    obtain ⟨-, h4⟩ := List.cons.inj h3
    obtain ⟨-, h5⟩ := List.cons.inj h4
    rw [h5]
  · rename_i hne
    exact (hne X rfl).elim

/-- Unfolding: the JSON value parser at the token `null`. -/
theorem parseVal_null (f : Nat) (X : List Char) :
    parseVal (f + 1) ('n' :: 'u' :: 'l' :: 'l' :: X) = some (.nullV, X) := by
  rw [parseVal.eq_def]
  dsimp only
  rw [skipWs_cons _ (by decide)]
  dsimp only
  rw [if_neg (by decide), if_neg (by decide), if_neg (by decide), if_neg (by decide),
    if_neg (by decide), if_pos rfl]
  split
  · rename_i r heq
    obtain ⟨-, h2⟩ := List.cons.inj heq
    obtain ⟨-, h3⟩ := List.cons.inj h2
    obtain ⟨-, h4⟩ := List.cons.inj h3
    rw [h4]
  · rename_i hne
    exact (hne X rfl).elim

/-- Unfolding: the JSON value parser at a number token. -/
theorem parseVal_num (f : Nat) (c : Char) (X : List Char)
    (hcd : c.isDigit = true ∨ c = '-') :
    parseVal (f + 1) (c :: X)
      = match parseJsonNumber (c :: X) with
        | some (q, r) => some (.numV q, r)
        | none => none := by
  have hws : isJsonWs c = false := by
    rcases hcd with h | h
    · exact isJsonWs_of_digit h
    · subst h; decide
  have hne : ∀ x : Char, x.isDigit = false → x ≠ '-' → c ≠ x := by
    intro x hx hxm
    rcases hcd with h | h
    · exact ne_of_digit h hx
    · subst h
      exact fun hc => hxm hc.symm
  rw [parseVal.eq_def]
  dsimp only
  rw [skipWs_cons _ hws]
  dsimp only
  rw [if_neg (hne '[' (by decide) (by decide)), if_neg (hne '{' (by decide) (by decide)),
    if_neg (hne '"' (by decide) (by decide)), if_neg (hne 't' (by decide) (by decide)),
    if_neg (hne 'f' (by decide) (by decide)), if_neg (hne 'n' (by decide) (by decide))]


/-- Unfolding: the array-body parser at a closing bracket. -/
theorem parseArrStart_close (f : Nat) (X : List Char) :
    parseArrStart (f + 1) (']' :: X) = some (.arrV [], X) := by
  rw [parseArrStart.eq_def]
  dsimp only
  rw [skipWs_cons _ (by decide)]
  dsimp only
  rw [if_pos rfl]

/-- Unfolding: the array-body parser at a first element. -/
theorem parseArrStart_open (f : Nat) (c : Char) (X : List Char)
    (hws : isJsonWs c = false) (hne : c ≠ ']') :
    parseArrStart (f + 1) (c :: X)
      = match parseArrItems f (c :: X) with
        | some (vs, r) => some (.arrV vs, r)
        | none => none := by
  rw [parseArrStart.eq_def]
  dsimp only
  rw [skipWs_cons _ hws]
  dsimp only
  rw [if_neg hne]

/-- Unfolding: the object-body parser at a closing brace. -/
theorem parseObjStart_close (f : Nat) (X : List Char) :
    parseObjStart (f + 1) ('}' :: X) = some (.objV [], X) := by
  rw [parseObjStart.eq_def]
  dsimp only
  rw [skipWs_cons _ (by decide)]
  dsimp only
  rw [if_pos rfl]

/-- Unfolding: the object-body parser at a first member. -/
theorem parseObjStart_open (f : Nat) (c : Char) (X : List Char)
    (hws : isJsonWs c = false) (hne : c ≠ '}') :
    parseObjStart (f + 1) (c :: X)
      = match parseObjItems f (c :: X) with
        | some (fs, r) => some (.objV fs, r)
        | none => none := by
  rw [parseObjStart.eq_def]
  dsimp only
  rw [skipWs_cons _ hws]
  dsimp only
  rw [if_neg hne]

/-- A canonical number prints with a digit or minus sign first. -/
theorem qNumChars_head (d : Dec10) (hdc : DecCanon d) :
    ∃ c t, qNumChars d = c :: t ∧ (c.isDigit = true ∨ c = '-') := by
  have hshape : ∃ body : List Char, (∃ c0 t0, body = c0 :: t0 ∧ c0.isDigit = true) ∧
      qNumChars d = (if d.mant < 0 then ['-'] else []) ++ body := by
    rcases hdc with he | ⟨he, h10⟩
    · obtain ⟨c0, t0, h0⟩ := natDecChars_cons d.mant.natAbs
      exact ⟨_, ⟨c0, t0, h0, natDecChars_digits _ c0 (by rw [h0]; simp)⟩, qNumChars_int d he⟩
    · obtain ⟨c0, t0, h0⟩ := natDecChars_cons (d.mant.natAbs / 10 ^ (-d.exp10).toNat)
      refine ⟨_, ⟨c0, t0 ++ '.' :: (List.replicate
            ((-d.exp10).toNat
              - (natDecChars (d.mant.natAbs % 10 ^ (-d.exp10).toNat)).length) '0'
            ++ natDecChars (d.mant.natAbs % 10 ^ (-d.exp10).toNat)), ?_,
          natDecChars_digits _ c0 (by rw [h0]; simp)⟩,
        qNumChars_frac d he h10⟩
      rw [h0, List.cons_append]
  obtain ⟨body, ⟨c0, t0, hb, hcd⟩, hq⟩ := hshape
  by_cases hneg : d.mant < 0
  · rw [if_pos hneg] at hq
    exact ⟨'-', body, by rw [hq]; rfl, Or.inr rfl⟩
  · rw [if_neg hneg, List.nil_append] at hq
    exact ⟨c0, t0, by rw [hq, hb], Or.inl hcd⟩

/-- The serialisation of a value starts with a character that is neither
whitespace nor a closing bracket. -/
theorem strfyV_head (v : JsValue) (hs : Ser v) :
    ∃ c t, strfyV v = c :: t ∧ isJsonWs c = false ∧ c ≠ ']' ∧ c ≠ '}' := by
  cases hs with
  | nullS => exact ⟨'n', _, rfl, by decide, by decide, by decide⟩
  | boolS b =>
    cases b
    · refine ⟨'f', _, rfl, ?_, ?_, ?_⟩ <;> decide
    · refine ⟨'t', _, rfl, ?_, ?_, ?_⟩ <;> decide
  | strS s => exact ⟨'"', _, rfl, by decide, by decide, by decide⟩
  | arrS es h => exact ⟨'[', _, rfl, by decide, by decide, by decide⟩
  | objS fs h => exact ⟨'{', _, rfl, by decide, by decide, by decide⟩
  | numS d hdc =>
    obtain ⟨c, t, hq, hcd⟩ := qNumChars_head d hdc
    refine ⟨c, t, hq, ?_, ?_, ?_⟩
    · rcases hcd with h | h
      · exact isJsonWs_of_digit h
      · subst h; decide
    · rcases hcd with h | h
      · exact ne_of_digit h (by decide)
      · subst h; decide
    · rcases hcd with h | h
      · exact ne_of_digit h (by decide)
      · subst h; decide

/-- With sufficient fuel, the three JSON parsers invert the three
serialisers on serialisable values (mutual strong induction on fuel). -/
theorem parse_strfy (f : Nat) :
    (∀ v rest, Ser v → nVal v ≤ f → numStop rest →
      parseVal f (strfyV v ++ rest) = some (v, rest))
    ∧ (∀ es rest, es ≠ [] → (∀ e ∈ es, Ser e) → nItems es ≤ f →
      parseArrItems f (strfyElems es ++ ']' :: rest) = some (es, rest))
    ∧ (∀ fs rest, fs ≠ [] → (∀ p ∈ fs, Ser p.2) → nFields fs ≤ f →
      parseObjItems f (strfyFields fs ++ '}' :: rest) = some (fs, rest)) := by
  induction f using Nat.strong_induction_on with
  | _ f ih =>
  refine ⟨?_, ?_, ?_⟩
  · intro v rest hs hf hstop
    cases hs with
    | nullS =>
      cases f with
      | zero => simp [nVal] at hf
      | succ f' =>
        show parseVal (f' + 1) ('n' :: 'u' :: 'l' :: 'l' :: rest) = some (.nullV, rest)
        exact parseVal_null f' rest
    | boolS b =>
      cases f with
      | zero => simp [nVal] at hf
      | succ f' =>
        cases b with
        | true =>
          show parseVal (f' + 1) ('t' :: 'r' :: 'u' :: 'e' :: rest)
              = some (.boolV true, rest)
          exact parseVal_true f' rest
        | false =>
          show parseVal (f' + 1) ('f' :: 'a' :: 'l' :: 's' :: 'e' :: rest)
              = some (.boolV false, rest)
          exact parseVal_false f' rest
    | numS d hdc =>
      cases f with
      | zero => simp [nVal] at hf
      | succ f' =>
        obtain ⟨c, t, hq, hcd⟩ := qNumChars_head d hdc
        show parseVal (f' + 1) (qNumChars d ++ rest) = some (.numV d, rest)
        rw [hq, List.cons_append, parseVal_num f' c (t ++ rest) hcd, ← List.cons_append,
          ← hq, parseJsonNumber_qNum d hdc rest hstop]
    | strS s =>
      cases f with
      | zero => simp [nVal] at hf
      | succ f' =>
        show parseVal (f' + 1) ('"' :: ((escapeChars s.data ++ ['"']) ++ rest))
            = some (.strV s, rest)
        rw [parseVal_str, List.append_assoc, List.singleton_append, parseStrBody_escape]
    | arrS es hes =>
      cases f with
      | zero => simp [nVal] at hf
      | succ f' =>
      cases f' with
      | zero =>
        simp only [nVal] at hf
        omega
      | succ f'' =>
        show parseVal (f'' + 1 + 1) ('[' :: ((strfyElems es ++ [']']) ++ rest))
            = some (.arrV es, rest)
        rw [parseVal_arr, List.append_assoc, List.singleton_append]
        cases es with
        | nil =>
          show parseArrStart (f'' + 1) (']' :: rest) = some (.arrV [], rest)
          exact parseArrStart_close f'' rest
        | cons e es' =>
          have hsere : Ser e := hes e (by simp)
          obtain ⟨c, t, hse, hws, hne1, hne2⟩ := strfyV_head e hsere
          have hdec : ∃ T, strfyElems (e :: es') ++ ']' :: rest = c :: T := by
            cases es' with
            | nil =>
              refine ⟨t ++ ']' :: rest, ?_⟩
              show strfyV e ++ ']' :: rest = _
              rw [hse, List.cons_append]
            | cons e' es'' =>
              refine ⟨(t ++ ',' :: strfyElems (e' :: es'')) ++ ']' :: rest, ?_⟩
              show (strfyV e ++ ',' :: strfyElems (e' :: es'')) ++ ']' :: rest = _
              rw [hse, List.cons_append, List.cons_append]
          obtain ⟨T, hT⟩ := hdec
          rw [hT, parseArrStart_open f'' c T hws hne1, ← hT]
          have hni : nItems (e :: es') ≤ f'' := by
            simp only [nVal] at hf
            omega
          have harr := (ih f'' (by omega)).2.1 (e :: es') rest (by simp) hes hni
          rw [harr]
    | objS fs hfs =>
      cases f with
      | zero => simp [nVal] at hf
      | succ f' =>
      cases f' with
      | zero =>
        simp only [nVal] at hf
        omega
      | succ f'' =>
        show parseVal (f'' + 1 + 1) ('{' :: ((strfyFields fs ++ ['}']) ++ rest))
            = some (.objV fs, rest)
        rw [parseVal_obj, List.append_assoc, List.singleton_append]
        cases fs with
        | nil =>
          show parseObjStart (f'' + 1) ('}' :: rest) = some (.objV [], rest)
          exact parseObjStart_close f'' rest
        | cons p fs' =>
          have hdec : ∃ T, strfyFields (p :: fs') ++ '}' :: rest = '"' :: T := by
            cases fs' with
            | nil =>
              refine ⟨(escapeChars p.1.data ++ '"' :: ':' :: strfyV p.2) ++ '}' :: rest, ?_⟩
              show ('"' :: (escapeChars p.1.data ++ '"' :: ':' :: strfyV p.2)) ++ '}' :: rest
                  = _
              rw [List.cons_append]
            | cons p' fs'' =>
              refine ⟨((escapeChars p.1.data ++ '"' :: ':' :: strfyV p.2)
                  ++ ',' :: strfyFields (p' :: fs'')) ++ '}' :: rest, ?_⟩
              show (('"' :: (escapeChars p.1.data ++ '"' :: ':' :: strfyV p.2))
                  ++ ',' :: strfyFields (p' :: fs'')) ++ '}' :: rest = _
              rw [List.cons_append, List.cons_append]
          obtain ⟨T, hT⟩ := hdec
          rw [hT, parseObjStart_open f'' '"' T (by decide) (by decide), ← hT]
          have hni : nFields (p :: fs') ≤ f'' := by
            simp only [nVal] at hf
            omega
          have hobj := (ih f'' (by omega)).2.2 (p :: fs') rest (by simp) hfs hni
          rw [hobj]
  · intro es rest hnil hes hf
    cases es with
    | nil => exact absurd rfl hnil
    | cons v vs =>
      cases f with
      | zero =>
        simp only [nItems] at hf
        omega
      | succ f' =>
        have hserv : Ser v := hes v (by simp)
        have hfv : nVal v ≤ f' := by
          simp only [nItems] at hf
          omega
        simp only [parseArrItems]
        cases vs with
        | nil =>
          have h1 := (ih f' (by omega)).1 v (']' :: rest) hserv hfv (by simp [numStop])
          rw [show strfyElems [v] = strfyV v from rfl, h1]
          dsimp only
          rw [skipWs_cons _ (by decide)]
          dsimp only
          rw [if_neg (by decide), if_pos rfl]
        | cons v' vs' =>
          have h1 := (ih f' (by omega)).1 v (',' :: (strfyElems (v' :: vs') ++ ']' :: rest))
            hserv hfv (by simp [numStop])
          have hshape : strfyElems (v :: v' :: vs') ++ ']' :: rest
              = strfyV v ++ (',' :: (strfyElems (v' :: vs') ++ ']' :: rest)) := by
            show (strfyV v ++ ',' :: strfyElems (v' :: vs')) ++ ']' :: rest = _
            rw [List.append_assoc, List.cons_append]
          rw [hshape, h1]
          dsimp only
          rw [skipWs_cons _ (by decide)]
          dsimp only
          rw [if_pos rfl]
          have h2 := (ih f' (by omega)).2.1 (v' :: vs') rest (by simp)
            (fun e he => hes e (by simp [he])) (by simp only [nItems] at hf ⊢; omega)
          rw [h2]
  · intro fs rest hnil hfs hf
    cases fs with
    | nil => exact absurd rfl hnil
    | cons p fs' =>
      cases f with
      | zero =>
        simp only [nFields] at hf
        omega
      | succ f' =>
        have hserp : Ser p.2 := hfs p (by simp)
        have hfp : nVal p.2 ≤ f' := by
          simp only [nFields] at hf
          omega
        simp only [parseObjItems]
        cases fs' with
        | nil =>
          have hshape : strfyFields [p] ++ '}' :: rest
              = '"' :: (escapeChars p.1.data ++ '"' :: (':' :: (strfyV p.2 ++ '}' :: rest))) := by
            show ('"' :: (escapeChars p.1.data ++ '"' :: ':' :: strfyV p.2)) ++ '}' :: rest = _
            rw [List.cons_append, List.append_assoc]
            rfl
          rw [hshape]
          rw [skipWs_cons _ (by decide)]
          dsimp only
          rw [if_pos rfl, parseStrBody_escape]
          dsimp only
          rw [skipWs_cons _ (by decide)]
          dsimp only
          rw [if_pos rfl]
          have h1 := (ih f' (by omega)).1 p.2 ('}' :: rest) hserp hfp (by simp [numStop])
          rw [h1]
          dsimp only
          rw [skipWs_cons _ (by decide)]
          dsimp only
          rw [if_neg (by decide), if_pos rfl]
        | cons p' fs'' =>
          have hshape : strfyFields (p :: p' :: fs'') ++ '}' :: rest
              = '"' :: (escapeChars p.1.data ++ '"' :: (':' :: (strfyV p.2
                  ++ ',' :: (strfyFields (p' :: fs'') ++ '}' :: rest)))) := by
            show (('"' :: (escapeChars p.1.data ++ '"' :: ':' :: strfyV p.2))
                ++ ',' :: strfyFields (p' :: fs'')) ++ '}' :: rest = _
            rw [List.cons_append, List.cons_append, List.append_assoc, List.append_assoc]
            rfl
          rw [hshape]
          rw [skipWs_cons _ (by decide)]
          dsimp only
          rw [if_pos rfl, parseStrBody_escape]
          dsimp only
          rw [skipWs_cons _ (by decide)]
          dsimp only
          rw [if_pos rfl]
          have h1 := (ih f' (by omega)).1 p.2
            (',' :: (strfyFields (p' :: fs'') ++ '}' :: rest)) hserp hfp (by simp [numStop])
          rw [h1]
          dsimp only
          rw [skipWs_cons _ (by decide)]
          dsimp only
          rw [if_pos rfl]
          have h2 := (ih f' (by omega)).2.2 (p' :: fs'') rest (by simp)
            (fun q hq => hfs q (by simp [hq])) (by simp only [nFields] at hf ⊢; omega)
          rw [h2]

/-- The canonical printer never yields the empty list. -/
theorem qNumChars_ne_nil (d : Dec10) : qNumChars d ≠ [] := by
  simp only [qNumChars]
  split
  · intro h
    obtain ⟨-, h2⟩ := List.append_eq_nil.mp h
    exact natDecCharsAux_ne_nil _ _ h2
  · split
    · intro h
      obtain ⟨-, h2⟩ := List.append_eq_nil.mp h
      exact natDecCharsAux_ne_nil _ _ h2
    · intro h
      obtain ⟨-, h2⟩ := List.append_eq_nil.mp h
      exact List.cons_ne_nil _ _ h2

/-- The parsing fuel of a value is bounded by twice its printed length
(mutual strong induction on the structural size). -/
theorem nVal_le_strfy (n : Nat) :
    (∀ v, jsSize v ≤ n → nVal v ≤ 2 * (strfyV v).length)
    ∧ (∀ es, jsSizeL es ≤ n → nItems es ≤ 2 + 2 * (strfyElems es).length)
    ∧ (∀ fs, jsSizeF fs ≤ n → nFields fs ≤ 2 + 2 * (strfyFields fs).length) := by
  induction n using Nat.strong_induction_on with
  | _ n ih =>
  refine ⟨?_, ?_, ?_⟩
  · intro v hsz
    cases v with
    | undef => simp [nVal, strfyV]
    | nullV => simp [nVal, strfyV]
    | boolV b => cases b <;> simp [nVal, strfyV]
    | numV d =>
      have hlen : 1 ≤ (qNumChars d).length :=
        List.length_pos.mpr (qNumChars_ne_nil d)
      show nVal (.numV d) ≤ 2 * (qNumChars d).length
      have h1 : nVal (.numV d) = 1 := rfl
      omega
    | strV s =>
      show nVal (.strV s) ≤ 2 * ('"' :: (escapeChars s.data ++ ['"'])).length
      have h1 : nVal (.strV s) = 1 := rfl
      simp only [List.length_cons]
      omega
    | arrV es =>
      have hsz' : 1 + jsSizeL es ≤ n := hsz
      have h2 := (ih (n - 1) (by omega)).2.1 es (by omega)
      show nVal (.arrV es) ≤ 2 * ('[' :: (strfyElems es ++ [']'])).length
      have h1 : nVal (.arrV es) = 2 + nItems es := rfl
      simp only [List.length_cons, List.length_append, List.length_singleton]
      omega
    | objV fs =>
      have hsz' : 1 + jsSizeF fs ≤ n := hsz
      have h2 := (ih (n - 1) (by omega)).2.2 fs (by omega)
      show nVal (.objV fs) ≤ 2 * ('{' :: (strfyFields fs ++ ['}'])).length
      have h1 : nVal (.objV fs) = 2 + nFields fs := rfl
      simp only [List.length_cons, List.length_append, List.length_singleton]
      omega
  · intro es hsz
    cases es with
    | nil => simp [nItems]
    | cons v vs =>
      have hsz' : 1 + jsSize v + jsSizeL vs ≤ n := hsz
      have hv := (ih (n - 1) (by omega)).1 v (by omega)
      have h1 : nItems (v :: vs) = 1 + max (nVal v) (nItems vs) := rfl
      cases vs with
      | nil =>
        show nItems [v] ≤ 2 + 2 * (strfyV v).length
        have h0 : nItems ([] : List JsValue) = 0 := rfl
        omega
      | cons v' vs' =>
        have hvs := (ih (n - 1) (by omega)).2.1 (v' :: vs')
          (by
            have : jsSizeL (v' :: vs') = 1 + jsSize v' + jsSizeL vs' := rfl
            have h2 : jsSizeL (v :: v' :: vs')
                = 1 + jsSize v + jsSizeL (v' :: vs') := rfl
            omega)
        show nItems (v :: v' :: vs')
            ≤ 2 + 2 * (strfyV v ++ ',' :: strfyElems (v' :: vs')).length
        simp only [List.length_append, List.length_cons]
        omega
  · intro fs hsz
    cases fs with
    | nil => simp [nFields]
    | cons p fs' =>
      have hsz' : 1 + jsSize p.2 + jsSizeF fs' ≤ n := hsz
      have hv := (ih (n - 1) (by omega)).1 p.2 (by omega)
      have h1 : nFields (p :: fs') = 1 + max (nVal p.2) (nFields fs') := rfl
      cases fs' with
      | nil =>
        show nFields [p]
            ≤ 2 + 2 * ('"' :: (escapeChars p.1.data ++ '"' :: ':' :: strfyV p.2)).length
        have h0 : nFields ([] : List (String × JsValue)) = 0 := rfl
        simp only [List.length_cons, List.length_append]
        omega
      | cons p' fs'' =>
        have hfs := (ih (n - 1) (by omega)).2.2 (p' :: fs'')
          (by
            have : jsSizeF (p' :: fs'') = 1 + jsSize p'.2 + jsSizeF fs'' := rfl
            have h2 : jsSizeF (p :: p' :: fs'')
                = 1 + jsSize p.2 + jsSizeF (p' :: fs'') := rfl
            omega)
        show nFields (p :: p' :: fs'')
            ≤ 2 + 2 * (('"' :: (escapeChars p.1.data ++ '"' :: ':' :: strfyV p.2))
                ++ ',' :: strfyFields (p' :: fs'')).length
        simp only [List.length_append, List.length_cons]
        omega

/-- `JSON.parse` inverts `JSON.stringify` on every serialisable value. -/
theorem jsonParse_strfy (v : JsValue) (hs : Ser v) :
    jsonParse (stringifyJs v) = some v := by
  have hb : nVal v ≤ 2 * (strfyV v).length + 4 := by
    have := (nVal_le_strfy (jsSize v)).1 v (le_refl _)
    omega
  have h := (parse_strfy (2 * (strfyV v).length + 4)).1 v [] hs hb (by simp [numStop])
  rw [List.append_nil] at h
  unfold jsonParse stringifyJs jsonFuel
  rw [show (⟨strfyV v⟩ : String).data = strfyV v from rfl, h]
  dsimp only
  rw [if_pos (show skipWs [] = [] from rfl)]

/-- Unfolding equation of the quote escaper. -/
theorem escAQ_cons (c : Char) (cs : List Char) :
    escapeAllQuotes (c :: cs)
      = (if c = '"' then ['\\', '"'] else [c]) ++ escapeAllQuotes cs := by
  simp only [escapeAllQuotes, List.map_cons, List.flatten_cons]

/-- The escaper's output never starts with a bare quote. -/
theorem escAQ_no_quote_head (cs t : List Char) : escapeAllQuotes cs ≠ '"' :: t := by
  cases cs with
  | nil => simp [escapeAllQuotes]
  | cons c cs' =>
    rw [escAQ_cons]
    by_cases hc : c = '"'
    · rw [if_pos hc]
      intro h
      exact absurd (List.cons.inj h).1 (by decide)
    · rw [if_neg hc, List.singleton_append]
      intro h
      exact hc (List.cons.inj h).1

/-- The escaper's output at a non-empty input is non-empty. -/
theorem escAQ_ne_nil (c : Char) (cs : List Char) : escapeAllQuotes (c :: cs) ≠ [] := by
  rw [escAQ_cons]
  split <;> simp

/-- Unfolding: the quote cleaner at an escaped quote. -/
theorem cleanBQ_esc (t : List Char) :
    cleanBackslashQuotes ('\\' :: '"' :: t) = '"' :: cleanBackslashQuotes t := by
  rfl

/-- Unfolding: the quote cleaner at a single character. -/
theorem cleanBQ_single (c : Char) : cleanBackslashQuotes [c] = [c] := by
  rw [cleanBackslashQuotes.eq_def]
  split
  · rename_i heq
    exact absurd heq (by simp)
  · rename_i c' t heq
    obtain ⟨h1, h2⟩ := List.cons.inj heq
    subst h1
    rw [← h2]
    rfl
  · rename_i heq
    exact absurd heq (by simp)

/-- Unfolding: the quote cleaner passes a pair that is not an escaped
quote. -/
theorem cleanBQ_cons2 (c d : Char) (t : List Char) (h : ¬(c = '\\' ∧ d = '"')) :
    cleanBackslashQuotes (c :: d :: t) = c :: cleanBackslashQuotes (d :: t) := by
  rw [cleanBackslashQuotes.eq_def]
  split
  · rename_i t' heq
    obtain ⟨h1, heq2⟩ := List.cons.inj heq
    obtain ⟨h2, -⟩ := List.cons.inj heq2
    exact absurd ⟨h1, h2⟩ h
  · rename_i c' t' heq
    obtain ⟨h1, h2⟩ := List.cons.inj heq
    subst h1
    rw [h2]
  · rename_i heq
    exact absurd heq (by simp)

/-- Cleaning inverts escaping: replacing each escaped quote recovers the
original string. -/
theorem clean_escape (cs : List Char) :
    cleanBackslashQuotes (escapeAllQuotes cs) = cs := by
  induction cs with
  | nil => rfl
  | cons c cs ih =>
    by_cases hc : c = '"'
    · subst hc
      rw [escAQ_cons, if_pos rfl, List.cons_append, List.cons_append, List.nil_append,
        cleanBQ_esc, ih]
    · rw [escAQ_cons, if_neg hc, List.singleton_append]
      cases hE : escapeAllQuotes cs with
      | nil =>
        cases cs with
        | nil => exact cleanBQ_single c
        | cons d t => exact absurd hE (escAQ_ne_nil d t)
      | cons e0 t0 =>
        have he0 : ¬(c = '\\' ∧ e0 = '"') := by
          rintro ⟨-, h2⟩
          subst h2
          exact escAQ_no_quote_head cs t0 hE
        rw [cleanBQ_cons2 c e0 t0 he0, ← hE, ih]

/-- An escaped quote blocks the member parser: keys must start with a bare
quote. -/
theorem parseObjItems_bs (f : Nat) (X : List Char) :
    parseObjItems f ('\\' :: X) = none := by
  cases f with
  | zero => rfl
  | succ f' =>
    rw [parseObjItems.eq_def]
    dsimp only
    rw [skipWs_cons _ (by decide)]
    dsimp only
    rw [if_neg (by decide)]

/-- An escaped quote blocks the object parser. -/
theorem parseObjStart_bs (f : Nat) (X : List Char) :
    parseObjStart f ('\\' :: X) = none := by
  cases f with
  | zero => rfl
  | succ f' =>
    rw [parseObjStart.eq_def]
    dsimp only
    rw [skipWs_cons _ (by decide)]
    dsimp only
    rw [if_neg (by decide), parseObjItems_bs f' X]

/-- An escaped quote after an opening brace blocks the value parser. -/
theorem parseVal_obj_bs (f : Nat) (X : List Char) :
    parseVal f ('{' :: '\\' :: X) = none := by
  cases f with
  | zero => rfl
  | succ f' => rw [parseVal_obj, parseObjStart_bs]

/-- An escaped quote after an opening brace blocks the element parser. -/
theorem parseArrItems_obs (f : Nat) (X : List Char) :
    parseArrItems f ('{' :: '\\' :: X) = none := by
  cases f with
  | zero => rfl
  | succ f' =>
    simp only [parseArrItems]
    rw [parseVal_obj_bs f' X]

/-- An escaped quote after an opening brace blocks the array parser. -/
theorem parseArrStart_obs (f : Nat) (X : List Char) :
    parseArrStart f ('{' :: '\\' :: X) = none := by
  cases f with
  | zero => rfl
  | succ f' =>
    rw [parseArrStart.eq_def]
    dsimp only
    rw [skipWs_cons _ (by decide)]
    dsimp only
    rw [if_neg (by decide), parseArrItems_obs f' X]

/-- A quote-escaped serialised array of objects is not valid JSON. -/
theorem parseVal_arr_obs (f : Nat) (X : List Char) :
    parseVal f ('[' :: '{' :: '\\' :: X) = none := by
  cases f with
  | zero => rfl
  | succ f' => rw [parseVal_arr, parseArrStart_obs]

/-- `JSON.parse` rejects a quote-escaped serialised array of objects. -/
theorem jsonParse_bs (X : List Char) :
    jsonParse ⟨'[' :: '{' :: '\\' :: X⟩ = none := by
  unfold jsonParse
  rw [show (⟨'[' :: '{' :: '\\' :: X⟩ : String).data = '[' :: '{' :: '\\' :: X from rfl,
    parseVal_arr_obs]

/-- A serialised array whose first element is a non-empty object starts
with bracket, brace, quote. -/
theorem strfy_arr_head (fs0 : String × JsValue) (fs1 : List (String × JsValue))
    (es' : List JsValue) :
    ∃ Y, strfyV (.arrV (.objV (fs0 :: fs1) :: es')) = '[' :: '{' :: '"' :: Y := by
  obtain ⟨Y0, hY0⟩ : ∃ Y0, strfyFields (fs0 :: fs1) = '"' :: Y0 := by
    cases fs1 with
    | nil => exact ⟨_, rfl⟩
    | cons p fs'' => exact ⟨_, rfl⟩
  obtain ⟨T, hT⟩ : ∃ T, strfyElems (JsValue.objV (fs0 :: fs1) :: es')
      = strfyV (.objV (fs0 :: fs1)) ++ T := by
    cases es' with
    | nil => exact ⟨[], (List.append_nil _).symm⟩
    | cons e' es'' => exact ⟨_, rfl⟩
  refine ⟨(Y0 ++ ['}'] ++ T) ++ [']'], ?_⟩
  show '[' :: (strfyElems (JsValue.objV (fs0 :: fs1) :: es') ++ [']'])
      = '[' :: '{' :: '"' :: ((Y0 ++ ['}'] ++ T) ++ [']'])
  rw [hT]
  show '[' :: (('{' :: (strfyFields (fs0 :: fs1) ++ ['}']) ++ T) ++ [']'])
      = '[' :: '{' :: '"' :: ((Y0 ++ ['}'] ++ T) ++ [']'])
  rw [hY0]
  simp [List.cons_append, List.append_assoc]

/-- A valid CommissionPair as the dashboard stores one: a non-empty JSON
object whose field values are serialisable (strings, canonical numbers,
booleans or null, possibly nested). -/
def validPair (v : JsValue) : Prop :=
  ∃ fs, v = .objV fs ∧ fs ≠ [] ∧ ∀ p ∈ fs, Ser p.2

/-- An array of valid pairs is serialisable. -/
theorem ser_of_validPairs (es : List JsValue) (h : ∀ v ∈ es, validPair v) :
    Ser (.arrV es) := by
  refine Ser.arrS _ ?_
  intro x hx
  obtain ⟨fsx, hxeq, -, hserx⟩ := h x hx
  subst hxeq
  exact Ser.objS _ hserx

/-- The Normalizer pipeline on a non-empty valid pair list: the escaped
string fails direct parsing and is recovered by the cleaning branch. -/
theorem parseCommissionPairs_escaped_cons (e : JsValue) (es' : List JsValue)
    (h : ∀ v ∈ e :: es', validPair v) :
    parseCommissionPairs
        (.strV ⟨escapeAllQuotes (stringifyJs (.arrV (e :: es'))).data⟩) = e :: es' := by
  obtain ⟨fs, he, hfsne, hser⟩ := h e (by simp)
  obtain ⟨fs0, fs1, hfs⟩ : ∃ fs0 fs1, fs = fs0 :: fs1 := by
    cases fs with
    | nil => exact absurd rfl hfsne
    | cons a b => exact ⟨a, b, rfl⟩
  subst hfs
  subst he
  obtain ⟨Y, hY⟩ := strfy_arr_head fs0 fs1 es'
  have hE : escapeAllQuotes (strfyV (.arrV (.objV (fs0 :: fs1) :: es')))
      = '[' :: '{' :: '\\' :: '"' :: escapeAllQuotes Y := by
    rw [hY, escAQ_cons, if_neg (by decide), escAQ_cons, if_neg (by decide),
      escAQ_cons, if_pos rfl]
    rfl
  have hSer : Ser (JsValue.arrV (JsValue.objV (fs0 :: fs1) :: es')) :=
    ser_of_validPairs _ h
  have hjp : jsonParse ⟨escapeAllQuotes (strfyV (.arrV (.objV (fs0 :: fs1) :: es')))⟩
      = none := by
    rw [hE]
    exact jsonParse_bs _
  have hclean : cleanBackslashQuotes
        (escapeAllQuotes (strfyV (.arrV (.objV (fs0 :: fs1) :: es'))))
      = strfyV (.arrV (.objV (fs0 :: fs1) :: es')) := clean_escape _
  have hround : jsonParse ⟨strfyV (.arrV (.objV (fs0 :: fs1) :: es'))⟩
      = some (JsValue.arrV (JsValue.objV (fs0 :: fs1) :: es')) :=
    jsonParse_strfy _ hSer
  have ht : jsTruthy (.strV ⟨escapeAllQuotes
      (strfyV (.arrV (.objV (fs0 :: fs1) :: es')))⟩) = true := by
    simp only [jsTruthy, decide_eq_true_eq]
    intro hh
    have hd := congrArg String.data hh
    rw [show (⟨escapeAllQuotes (strfyV (.arrV (.objV (fs0 :: fs1) :: es')))⟩
        : String).data = escapeAllQuotes (strfyV (.arrV (.objV (fs0 :: fs1) :: es')))
      from rfl, hE] at hd
    simp at hd
  rw [show (stringifyJs (.arrV (.objV (fs0 :: fs1) :: es'))).data
      = strfyV (.arrV (.objV (fs0 :: fs1) :: es')) from rfl]
  show parseCommissionPairsFuel _ _ = _
  rw [parseCommissionPairsFuel.eq_def]
  dsimp only
  rw [if_neg (fun hcon => hcon ht)]
  rw [hjp]
  dsimp only
  simp only [tryCleanParse]
  rw [hclean]
  have hhead : (strfyV (.arrV (.objV (fs0 :: fs1) :: es'))).headD ' ' = '[' := by
    rw [hY]
    rfl
  rw [if_neg (by
    rintro ⟨h1, -⟩
    rw [hhead] at h1
    exact absurd h1 (by decide))]
  rw [hround]

/-- C5: Normalizer round trip — serialising a sequence of valid
CommissionPairs with `JSON.stringify`, escaping every double quote
(producing the `\"`-escaped string), and passing the result to
`parseCommissionPairs` reproduces the original sequence exactly. -/
theorem c5_normalizer_round_trip (es : List JsValue) (h : ∀ v ∈ es, validPair v) :
    parseCommissionPairs (.strV ⟨escapeAllQuotes (stringifyJs (.arrV es)).data⟩) = es := by
  cases es with
  | nil => rfl
  | cons e es' => exact parseCommissionPairs_escaped_cons e es' h

/-- A concrete valid pair for the C5 witness. -/
def c5pairW : JsValue :=
  .objV [("propertyCode", .strV "AB-12"),
         ("commissionValue", .numV ⟨125, -1⟩),
         ("sourceMonth", .strV "2025-12")]

/-- The C5 witness pair list is valid. -/
theorem c5pairW_valid : ∀ v ∈ ([c5pairW] : List JsValue), validPair v := by
  intro v hv
  rw [List.mem_singleton] at hv
  subst hv
  refine ⟨_, rfl, by simp, ?_⟩
  intro p hp
  simp only [List.mem_cons, List.not_mem_nil, or_false] at hp
  rcases hp with rfl | rfl | rfl
  · exact Ser.strS _
  · exact Ser.numS _ (Or.inr ⟨by norm_num, by norm_num⟩)
  · exact Ser.strS _

/-- Witness for C5, at a one-pair list with a string code, a fractional
commission and a source month. -/
theorem c5_witness :
    (∀ v ∈ ([c5pairW] : List JsValue), validPair v) ∧
    parseCommissionPairs
        (.strV ⟨escapeAllQuotes (stringifyJs (.arrV [c5pairW])).data⟩) = [c5pairW] :=
  ⟨c5pairW_valid, c5_normalizer_round_trip [c5pairW] c5pairW_valid⟩

end Leaderboard
